import Mathlib

set_option maxHeartbeats 1000000

/-!
Verification of the MimikaStudio audiobook generation pipeline
(`backend/tts/audiobook.py`, `backend/tts/text_chunking.py`,
`backend/tts/audio_utils.py`).

Text is modelled as `List Char`, PCM audio as `List ℚ` of sample values
(for the merge routine) or as per-yield sample counts (for the worker),
and times/durations as rationals.  The spaCy sentence tokenizer is an
optional external dependency; as in the source's fallback path, sentence
splitting is the regex-based splitter.
-/

namespace Mimika

/-- Python's `\s` class, restricted to the ASCII whitespace characters. -/
def isWs (c : Char) : Bool :=
  c == ' ' || c == '\t' || c == '\n' || c == '\r' || c == '\x0b' || c == '\x0c'

theorem lenDropWhileLe (p : Char → Bool) :
    ∀ l : List Char, (l.dropWhile p).length ≤ l.length
  | [] => by simp [List.dropWhile]
  | c :: rest => by
    simp only [List.dropWhile]
    split
    · exact Nat.le_succ_of_le (lenDropWhileLe p rest)
    · simp

/-- `re.sub(r'\s+', ' ', text)`: collapse each whitespace run to a single space. -/
def collapseWs : List Char → List Char
  | [] => []
  | c :: rest =>
    if isWs c then ' ' :: collapseWs (rest.dropWhile isWs)
    else c :: collapseWs rest
termination_by l => l.length
decreasing_by
  · exact Nat.lt_succ_of_le (lenDropWhileLe isWs rest)
  · simp

/-- Drop trailing whitespace (right half of Python `str.strip()`). -/
def dropTrailingWs : List Char → List Char
  | [] => []
  | c :: rest =>
    let r := dropTrailingWs rest
    if r.isEmpty && isWs c then [] else c :: r

/-- Python `str.strip()`. -/
def stripWs (l : List Char) : List Char :=
  dropTrailingWs (l.dropWhile isWs)

/-- `re.sub(r'\s+', ' ', text).strip()`, the normalization used throughout
the chunking code. -/
def normalizeWs (l : List Char) : List Char :=
  stripWs (collapseWs l)

/-- Python `' '.join(parts)`. -/
def joinSp : List (List Char) → List Char
  | [] => []
  | [x] => x
  | x :: y :: rest => x ++ ' ' :: joinSp (y :: rest)

/-- Auxiliary accumulator loop for Python `str.split()` (split on whitespace
runs, discarding empty pieces).  `cur` holds the current word reversed. -/
def pySplitAux : List Char → List Char → List (List Char)
  | cur, [] => if cur.isEmpty then [] else [cur.reverse]
  | cur, c :: rest =>
    if isWs c then
      if cur.isEmpty then pySplitAux [] rest
      else cur.reverse :: pySplitAux [] rest
    else pySplitAux (c :: cur) rest

/-- Python `str.split()` with no separator argument. -/
def pySplit (l : List Char) : List (List Char) := pySplitAux [] l

/-- The characters `.`, `!`, `?` ending a sentence. -/
def isSentEnd (c : Char) : Bool := c == '.' || c == '!' || c == '?'

/-- Python regex class `[A-Z]`. -/
def isUpper (c : Char) : Bool := decide ('A' ≤ c ∧ c ≤ 'Z')

/-- Does the regex `(?<=[.!?])\s+(?=[A-Z])` match right after `c` when the
remaining input is `rest`?  On whitespace-normalized text every whitespace
run is a single space. -/
def splitHere (c : Char) (rest : List Char) : Bool :=
  match rest with
  | sp :: u :: _ => sp == ' ' && isSentEnd c && isUpper u
  | _ => false

/-- Core of `re.split(r'(?<=[.!?])\s+(?=[A-Z])|(?<=[.!?])$', text)` on
whitespace-normalized text: scan, splitting after `.!?` followed by a space
and an uppercase letter (the space is consumed by the split).  The final
accumulated piece is always emitted; the `(?<=[.!?])$` alternative only ever
contributes a trailing empty piece, which the caller filters out exactly as
the Python list comprehension does. -/
def splitSentAux : List Char → List Char → List (List Char)
  | acc, [] => [acc]
  | acc, c :: rest =>
    if splitHere c rest then (acc ++ [c]) :: splitSentAux [] rest.tail
    else splitSentAux (acc ++ [c]) rest
termination_by _ l => l.length
decreasing_by
  · cases rest with
    | nil => simp at *
    | cons a t => simp [List.tail]; omega
  · simp

/-- `split_into_sentences_regex` from `backend/tts/audiobook.py` (the
fallback used when spaCy is unavailable): normalize whitespace, split on the
sentence-boundary regex, strip and drop empty parts, then fall back to
newline splitting and finally to the whole text. -/
def split_into_sentences_regex (text : List Char) : List (List Char) :=
  let t := normalizeWs text
  let parts := ((splitSentAux [] t).map stripWs).filter (fun p => !p.isEmpty)
  if parts.isEmpty then
    let nlParts := ((t.splitOn '\n').map stripWs).filter (fun p => !p.isEmpty)
    if nlParts.isEmpty then [t] else nlParts
  else parts

/-- Hard-split loop of `chunk_text_for_kokoro` (`audiobook.py` lines
264–277): greedily pack the words of an over-long sentence.  Note the
running length `tempLen` counts one space per word unconditionally. -/
def hardSplitKokoro (maxChars : Nat) : List (List Char) → List (List Char) → Nat → List (List Char)
  | [], temp, _ => if temp.isEmpty then [] else [joinSp temp]
  | w :: ws, temp, tempLen =>
    if tempLen + w.length + 1 > maxChars ∧ ¬ temp.isEmpty then
      joinSp temp :: hardSplitKokoro maxChars ws [w] w.length
    else hardSplitKokoro maxChars ws (temp ++ [w]) (tempLen + w.length + 1)

/-- Main loop of `chunk_text_for_kokoro` (`audiobook.py` lines 249–293) over
an explicit sentence list. -/
def chunkLoopKokoro (maxChars : Nat) : List (List Char) → List (List Char) → Nat → List (List Char)
  | [], cur, _ => if cur.isEmpty then [] else [joinSp cur]
  | s :: ss, cur, curLen =>
    if s.length > maxChars then
      (if cur.isEmpty then [] else [joinSp cur]) ++
        hardSplitKokoro maxChars (pySplit s) [] 0 ++
        chunkLoopKokoro maxChars ss [] 0
    else if curLen + s.length + 1 > maxChars ∧ ¬ cur.isEmpty then
      joinSp cur :: chunkLoopKokoro maxChars ss [s] s.length
    else chunkLoopKokoro maxChars ss (cur ++ [s]) (curLen + s.length + 1)

/-- `chunk_text_for_kokoro` from `backend/tts/audiobook.py` (spaCy absent,
so `split_into_sentences` resolves to the regex splitter). -/
def chunk_text_for_kokoro (text : List Char) (maxChars : Nat) : List (List Char) :=
  chunkLoopKokoro maxChars (split_into_sentences_regex text) [] 0

/-- Does the regex `(?<=[.!?])\s+` of `text_chunking.py` match right after
`c`?  (No uppercase lookahead in this variant.) -/
def splitHereTC (c : Char) (rest : List Char) : Bool :=
  match rest with
  | sp :: _ => sp == ' ' && isSentEnd c
  | _ => false

/-- Core of `re.split(r'(?<=[.!?])\s+', text)` on whitespace-normalized
text (`text_chunking.py`). -/
def splitSentAuxTC : List Char → List Char → List (List Char)
  | acc, [] => [acc]
  | acc, c :: rest =>
    if splitHereTC c rest then (acc ++ [c]) :: splitSentAuxTC [] rest.tail
    else splitSentAuxTC (acc ++ [c]) rest
termination_by _ l => l.length
decreasing_by
  · cases rest with
    | nil => simp at *
    | cons a t => simp [List.tail]; omega
  · simp

/-- `split_into_sentences_regex` from `backend/tts/text_chunking.py`. -/
def tc_split_into_sentences_regex (text : List Char) : List (List Char) :=
  let t := normalizeWs text
  if t.isEmpty then []
  else ((splitSentAuxTC [] t).map stripWs).filter (fun p => !p.isEmpty)

/-- Hard-split loop of `smart_chunk_text` (`text_chunking.py` lines 78–92);
differs from the Kokoro variant only in the exact running-length update
(`+ (1 if temp_len else 0)`). -/
def hardSplitSmart (maxChars : Nat) : List (List Char) → List (List Char) → Nat → List (List Char)
  | [], temp, _ => if temp.isEmpty then [] else [joinSp temp]
  | w :: ws, temp, tempLen =>
    if tempLen + w.length + 1 > maxChars ∧ ¬ temp.isEmpty then
      joinSp temp :: hardSplitSmart maxChars ws [w] w.length
    else hardSplitSmart maxChars ws (temp ++ [w])
      (tempLen + w.length + (if tempLen ≠ 0 then 1 else 0))

/-- Main loop of `smart_chunk_text` (`text_chunking.py` lines 67–104). -/
def chunkLoopSmart (maxChars : Nat) : List (List Char) → List (List Char) → Nat → List (List Char)
  | [], cur, _ => if cur.isEmpty then [] else [joinSp cur]
  | s0 :: ss, cur, curLen =>
    let s := stripWs s0
    if s.isEmpty then chunkLoopSmart maxChars ss cur curLen
    else if s.length > maxChars then
      (if cur.isEmpty then [] else [joinSp cur]) ++
        hardSplitSmart maxChars (pySplit s) [] 0 ++
        chunkLoopSmart maxChars ss [] 0
    else if curLen + s.length + (if curLen ≠ 0 then 1 else 0) > maxChars ∧ ¬ cur.isEmpty then
      joinSp cur :: chunkLoopSmart maxChars ss [s] s.length
    else chunkLoopSmart maxChars ss (cur ++ [s])
      (curLen + s.length + (if curLen ≠ 0 then 1 else 0))

/-- `smart_chunk_text` from `backend/tts/text_chunking.py` (spaCy absent,
so its `split_into_sentences` resolves to that file's regex splitter). -/
def smart_chunk_text (text : List Char) (maxChars : Nat) : List (List Char) :=
  let t := normalizeWs text
  if t.isEmpty then []
  else chunkLoopSmart maxChars (tc_split_into_sentences_regex t) [] 0

/-! ### Audio merging (`backend/tts/audio_utils.py`) -/

/-- `crossfade_samples = max(0, int(sample_rate * crossfade_ms / 1000))`.
With natural-number inputs, Python's truncating `int` of the true division
is floor division. -/
def crossfadeSamples (sampleRate crossfadeMs : Nat) : Nat :=
  sampleRate * crossfadeMs / 1000

/-- The blended overlap region: `prev_tail * linspace(1,0,n,endpoint=False)
+ next_head * linspace(0,1,n,endpoint=False)`, element-wise.  Sample `i` of
the two ramps is `1 - i/n` and `i/n`. -/
def blendOverlap (tail head : List ℚ) (n : Nat) : List ℚ :=
  (List.range n).map fun i =>
    tail.getD i 0 * (1 - (i : ℚ) / n) + head.getD i 0 * ((i : ℚ) / n)

/-- One iteration of the merge loop of `merge_audio_chunks` (mono case):
overlap `min(crossfade_samples, len(output), len(chunk))` samples, blending
the previous tail with the next head, then append the rest of the chunk. -/
def mergeStep (cf : Nat) (output chunk : List ℚ) : List ℚ :=
  let overlap := min cf (min output.length chunk.length)
  if 0 < overlap then
    output.take (output.length - overlap) ++
      blendOverlap (output.drop (output.length - overlap)) (chunk.take overlap) overlap ++
      chunk.drop overlap
  else output ++ chunk

/-- `merge_audio_chunks` from `backend/tts/audio_utils.py`, for mono
(1-channel) chunks at the target sample rate, which is the shape the
audiobook pipeline feeds it.  (The 2-D wrap/unwrap `_to_2d`/`_from_2d` is
the identity on this data, and the channel-mismatch fallback can not
trigger.) -/
def merge_audio_chunks (chunks : List (List ℚ)) (sampleRate : Nat)
    (crossfadeMs : Nat) : List ℚ :=
  match chunks with
  | [] => []
  | c0 :: rest => rest.foldl (mergeStep (crossfadeSamples sampleRate crossfadeMs)) c0

/-! ### Subtitle building (`audiobook.py` lines 759–806)

The per-chunk subtitle construction from the worker loop, as a function of
the chunk's text, its start time, the running time after it, and its
duration.  Subtitle indices start at 1 and thread through the chunks. -/

/-- A `SubtitleEntry` (dataclass in `audiobook.py`). -/
structure SubtitleEntry where
  index : Nat
  start_time : ℚ
  end_time : ℚ
  text : List Char
deriving Repr, DecidableEq

/-- `max_subtitle_len = 200`. -/
def maxSubtitleLen : Nat := 200

/-- The word loop of the long-chunk subdivision (`audiobook.py` lines
773–789): accumulate words; once the running character count (word length
plus one per word) reaches the display threshold, flush an entry whose
duration is the flushed word count over the words-per-second estimate.
Returns the flushed entries together with the leftover words, the start
time for the remainder, and the next subtitle index. -/
def subLoop (wps : ℚ) : List (List Char) → List (List Char) → Nat → ℚ → Nat →
    List SubtitleEntry × List (List Char) × ℚ × Nat
  | [], cur, _, subStart, idx => ([], cur, subStart, idx)
  | w :: ws, cur, curLen, subStart, idx =>
    let cur2 := cur ++ [w]
    let curLen2 := curLen + w.length + 1
    if maxSubtitleLen ≤ curLen2 then
      let dur := (cur2.length : ℚ) / wps
      let e : SubtitleEntry := ⟨idx, subStart, subStart + dur, joinSp cur2⟩
      let r := subLoop wps ws [] 0 (subStart + dur) (idx + 1)
      (e :: r.1, r.2)
    else subLoop wps ws cur2 curLen2 subStart idx

/-- Subtitle entries for one synthesized chunk (`audiobook.py` lines
761–806): a single entry spanning the chunk, unless the stripped text
exceeds the display threshold, in which case it is subdivided by the word
loop and the remainder (if any) ends at the chunk's end time.  Returns the
entries and the next subtitle index. -/
def buildChunkSubs (chunkText : List Char) (chunkStart currentTime chunkDur : ℚ)
    (idx : Nat) : List SubtitleEntry × Nat :=
  let s := stripWs chunkText
  if maxSubtitleLen < s.length then
    let words := pySplit s
    let wps : ℚ := if 0 < chunkDur then (words.length : ℚ) / chunkDur else 10
    let r := subLoop wps words [] 0 chunkStart idx
    match r with
    | (entries, leftover, subStart, idx2) =>
      if leftover.isEmpty then (entries, idx2)
      else (entries ++ [⟨idx2, subStart, currentTime, joinSp leftover⟩], idx2 + 1)
  else ([⟨idx, chunkStart, currentTime, s⟩], idx + 1)

/-- Accumulate subtitle entries over a job's chunks.  Each element pairs a
chunk's text with the sample counts its synthesis generator yielded; as in
the worker loop, a chunk whose generator yielded nothing advances neither
the clock nor the subtitles. -/
def buildAllSubs (sampleRate : Nat) : List (List Char × List Nat) → ℚ → Nat →
    List SubtitleEntry
  | [], _, _ => []
  | (text, ys) :: rest, t, idx =>
    if ys.isEmpty then buildAllSubs sampleRate rest t idx
    else
      let dur := (ys.sum : ℚ) / sampleRate
      let r := buildChunkSubs text t (t + dur) dur idx
      r.1 ++ buildAllSubs sampleRate rest (t + dur) r.2

/-- Total audio duration of a chunk sequence: the worker's `current_time`
after the loop. -/
def totalDur (sampleRate : Nat) (chunks : List (List Char × List Nat)) : ℚ :=
  (chunks.map fun p => if p.2.isEmpty then 0 else ((p.2.sum : ℚ) / sampleRate)).sum

/-! ### Chapter timeline (`audiobook.py` lines 722–822) -/

/-- State threaded through the chapter-boundary tracking in the worker
loop: cumulative characters, current chapter index, current chapter's start
time, running audio time, and the recorded `(start, end)` pairs. -/
structure ChapterState where
  charsProcessed : Nat
  chapterIdx : Nat
  chapterStart : ℚ
  currentTime : ℚ
  timestamps : List (ℚ × ℚ)
deriving Repr, DecidableEq

/-- One loop iteration of the chapter tracking (`audiobook.py` lines
741–818, restricted to the fields involved): advance the clock by the
chunk's audio duration, add its characters, and if the cumulative character
count has crossed the next chapter's cumulative threshold, record one
`(chapter_start_time, current_time)` pair — at most one per chunk. -/
def chapterStepFn (chapCounts : List Nat) (sampleRate : Nat)
    (st : ChapterState) (chunk : List Char × List Nat) : ChapterState :=
  let t2 := if chunk.2.isEmpty then st.currentTime
            else st.currentTime + (chunk.2.sum : ℚ) / sampleRate
  let chars2 := st.charsProcessed + chunk.1.length
  if ¬ chapCounts.isEmpty ∧ st.chapterIdx < chapCounts.length then
    if (chapCounts.take (st.chapterIdx + 1)).sum ≤ chars2 then
      { charsProcessed := chars2, chapterIdx := st.chapterIdx + 1,
        chapterStart := t2, currentTime := t2,
        timestamps := st.timestamps ++ [(st.chapterStart, t2)] }
    else { st with charsProcessed := chars2, currentTime := t2 }
  else { st with charsProcessed := chars2, currentTime := t2 }

/-- The chapter timeline as built by a completed worker run
(`audiobook.py`): fold the step over all chunks, then the post-loop fixup
that appends one final `(chapter_start_time, current_time)` pair when fewer
pairs than chapters were recorded. -/
def chapterTimeline (chapCounts : List Nat) (sampleRate : Nat)
    (chunks : List (List Char × List Nat)) : List (ℚ × ℚ) × ℚ :=
  let st := chunks.foldl (chapterStepFn chapCounts sampleRate)
    ⟨0, 0, 0, 0, []⟩
  let ts := if ¬ chapCounts.isEmpty ∧ st.timestamps.length < chapCounts.length
    then st.timestamps ++ [(st.chapterStart, st.currentTime)]
    else st.timestamps
  (ts, st.currentTime)

/-! ### The job worker (`audiobook.py` `_generate_audiobook`)

The worker thread is modelled as a function from an environment (the
outcomes of the external, fallible collaborators: the synthesizer, the
pydub mp3 transcoder and ffmpeg, plus the cooperative cancellation flag) to
the final job record and the trace of job records after each mutation of a
tracked field.  The cancellation flag, written by the API thread, is
abstracted by the ordinal of the first cooperative check at which it reads
true (`cancelFrom`): checks `0, …, n-1` precede each chunk's synthesis call
and check `n` precedes the final output write.  Subtitle-entry and
chapter-timestamp bookkeeping is modelled separately by `buildAllSubs` and
`chapterTimeline` above; the worker here tracks the fields the lifecycle
claims are about. -/

/-- `JobStatus` enum. -/
inductive JobStatus where
  | started
  | processing
  | completed
  | failed
  | cancelled
deriving Repr, DecidableEq

/-- `OutputFormat = Literal["wav", "mp3", "m4b"]`. -/
inductive OutputFormat where
  | wav
  | mp3
  | m4b
deriving Repr, DecidableEq

/-- `SubtitleFormat = Literal["none", "srt", "vtt"]`. -/
inductive SubtitleFormat where
  | noSubs
  | srt
  | vtt
deriving Repr, DecidableEq

/-- The tracked fields of an `AudiobookJob` record.  `audio_path` and
`subtitle_path` record which artifact was produced (paths are deterministic
in the job id); `completed_at` records whether the completion timestamp has
been set. -/
structure WJob where
  status : JobStatus
  output_format : OutputFormat
  subtitle_format : SubtitleFormat
  total_chunks : Nat
  current_chunk : Nat
  total_chars : Nat
  processed_chars : Nat
  audio_path : Option OutputFormat
  subtitle_path : Option SubtitleFormat
  duration_seconds : ℚ
  completed_at : Bool
  error_message : Option String
deriving Repr, DecidableEq

/-- Outcomes of the external collaborators for one run.  `synth` gives, per
chunk text, the sample counts yielded by the synthesis generator or the
exception it raises; `cancelFrom = some c` means the cancellation flag
reads true from the `c`-th cooperative check onwards. -/
structure WorkerEnv where
  synth : List Char → Except String (List Nat)
  cancelFrom : Option Nat
  mp3Ok : Bool
  ffmpegAvailable : Bool
  ffmpegOk : Bool

/-- `job.is_cancelled` as observed at cooperative check `k`. -/
def isCancelledAt (env : WorkerEnv) (k : Nat) : Bool :=
  match env.cancelFrom with
  | some c => decide (c ≤ k)
  | none => false

/-- How the chunk loop ended: normally (with accumulated sample count and
whether any audio was appended), by the cancellation `return`, or by an
exception reaching the worker's `except` clause. -/
inductive LoopResult where
  | done (s : WJob) (samples : Nat) (anyAudio : Bool) (tr : List WJob)
  | cancelledRet (s : WJob) (tr : List WJob)
  | raised (msg : String) (s : WJob) (tr : List WJob)

/-- The chunk loop (`audiobook.py` lines 732–810): check the cancellation
flag, bump `current_chunk`, synthesize, accumulate audio, update progress.
Each mutation of the job record appends a snapshot to the trace. -/
def runChunks (env : WorkerEnv) : Nat → List (List Char) → WJob → Nat → Bool →
    List WJob → LoopResult
  | _, [], s, samples, anyAudio, tr => .done s samples anyAudio tr
  | i, chunk :: rest, s, samples, anyAudio, tr =>
    if isCancelledAt env i then
      let s1 := { s with status := .cancelled }
      let s2 := { s1 with completed_at := true }
      .cancelledRet s2 (tr ++ [s1, s2])
    else
      let s1 := { s with current_chunk := i + 1 }
      match env.synth chunk with
      | .error msg => .raised msg s1 (tr ++ [s1])
      | .ok ys =>
        let samples2 := if ys.isEmpty then samples else samples + ys.sum
        let anyAudio2 := anyAudio || !ys.isEmpty
        let s2 := { s1 with processed_chars := s1.processed_chars + chunk.length }
        runChunks env (i + 1) rest s2 samples2 anyAudio2 (tr ++ [s1, s2])

/-- Output finalization (`audiobook.py` lines 830–871): set the duration,
write the WAV, convert to the requested format (`_convert_to_mp3` raises if
pydub fails; `_convert_to_m4b` falls back to mp3 when ffmpeg is missing or
its invocation fails), write the subtitle sidecar, set `audio_path`, then
`status = COMPLETED`; with no audio, `status = FAILED`.  File-system writes
and the final `stat` are not modelled as fallible. -/
def finalizeJob (env : WorkerEnv) (s : WJob) (samples : Nat) (anyAudio : Bool)
    (sampleRate : Nat) (tr : List WJob) : WJob × List WJob :=
  if anyAudio then
    let s1 := { s with duration_seconds := (samples : ℚ) / sampleRate }
    let out : Except String OutputFormat :=
      match s.output_format with
      | .wav => .ok .wav
      | .mp3 => if env.mp3Ok then .ok .mp3 else .error "mp3 conversion failed"
      | .m4b =>
        if !env.ffmpegAvailable then
          (if env.mp3Ok then .ok .mp3 else .error "mp3 conversion failed")
        else if env.ffmpegOk then .ok .m4b
        else (if env.mp3Ok then .ok .mp3 else .error "mp3 conversion failed")
    match out with
    | .error msg =>
      let s2 := { s1 with status := .failed }
      let s3 := { s2 with error_message := some msg }
      (s3, tr ++ [s1, s2, s3])
    | .ok fmt =>
      let s2 := if s1.subtitle_format = .noSubs then s1
        else { s1 with subtitle_path := some s1.subtitle_format }
      let s3 := { s2 with audio_path := some fmt }
      let s4 := { s3 with status := .completed }
      (s4, tr ++ [s1, s2, s3, s4])
  else
    let s1 := { s with status := .failed }
    let s2 := { s1 with error_message := some "No audio generated" }
    (s2, tr ++ [s1, s2])

/-- `_generate_audiobook`: set `PROCESSING`, run the chunk loop, re-check
cancellation before the final write, finalize; exceptions reaching the
worker boundary set `FAILED` and the message; the `finally` clause records
the completion timestamp on every path.  Returns the final job record and
the trace of records after each tracked mutation (starting from the record
as created). -/
def runWorker (env : WorkerEnv) (sampleRate : Nat) (chunks : List (List Char))
    (s0 : WJob) : WJob × List WJob :=
  let s1 := { s0 with status := .processing }
  match runChunks env 0 chunks s1 0 false [s0, s1] with
  | .cancelledRet s tr =>
    let sf := { s with completed_at := true }
    (sf, tr ++ [sf])
  | .raised msg s tr =>
    let s2 := { s with status := .failed }
    let s3 := { s2 with error_message := some msg }
    let sf := { s3 with completed_at := true }
    (sf, tr ++ [s2, s3, sf])
  | .done s samples anyAudio tr =>
    if isCancelledAt env chunks.length then
      let s2 := { s with status := .cancelled }
      let s3 := { s2 with completed_at := true }
      let sf := { s3 with completed_at := true }
      (sf, tr ++ [s2, s3, sf])
    else
      let r := finalizeJob env s samples anyAudio sampleRate tr
      let sf := { r.1 with completed_at := true }
      (sf, r.2 ++ [sf])

/-- The job record as `create_audiobook_job` creates it: `STARTED`, chunk
and character totals precomputed from the chunk list, no artifact paths. -/
def initJob (chunks : List (List Char)) (fmt : OutputFormat)
    (sub : SubtitleFormat) : WJob :=
  { status := .started, output_format := fmt, subtitle_format := sub,
    total_chunks := chunks.length, current_chunk := 0,
    total_chars := (chunks.map List.length).sum, processed_chars := 0,
    audio_path := none, subtitle_path := none, duration_seconds := 0,
    completed_at := false, error_message := none }

/-- `AudiobookJob.percent`: character-based when `total_chars > 0`, else
chunk-based, rounded to one decimal.  Python's `round(x, 1)` on floats is
modelled as round-to-nearest-tenth on rationals (tie behaviour differs only
at exact `.x5` ties, which no claim here depends on). -/
def percentQ (s : WJob) : ℚ :=
  if 0 < s.total_chars then
    (round ((s.processed_chars : ℚ) / (s.total_chars : ℚ) * 100 * 10) : ℚ) / 10
  else if s.total_chunks = 0 then 0
  else (round ((s.current_chunk : ℚ) / (s.total_chunks : ℚ) * 100 * 10) : ℚ) / 10

/-- A run in which every synthesis call yields one 100-sample segment and
every collaborator succeeds. -/
def demoEnvOk : WorkerEnv :=
  { synth := fun _ => Except.ok [100], cancelFrom := none,
    mp3Ok := true, ffmpegAvailable := true, ffmpegOk := true }

/-- Same collaborators, cancellation flag already set at the first check. -/
def demoEnvCancel0 : WorkerEnv :=
  { demoEnvOk with cancelFrom := some 0 }

/-- Same collaborators, cancellation flag first observed at check 1 (after
the first chunk, before the final output write). -/
def demoEnvCancelFinal : WorkerEnv :=
  { demoEnvOk with cancelFrom := some 1 }

/-- A run whose first synthesis call raises. -/
def demoEnvErr : WorkerEnv :=
  { demoEnvOk with synth := fun _ => Except.error "boom" }

/-- A run in which ffmpeg is not installed (pydub mp3 export works). -/
def demoEnvNoFfmpeg : WorkerEnv :=
  { demoEnvOk with ffmpegAvailable := false, ffmpegOk := false }

/-! ### Lemmas: audio merging -/

theorem blendOverlap_length (tail head : List ℚ) (n : Nat) :
    (blendOverlap tail head n).length = n := by
  simp [blendOverlap]

theorem mergeStep_length (cf : Nat) (out c : List ℚ) :
    (mergeStep cf out c).length + min cf (min out.length c.length) =
      out.length + c.length := by
  have h1 : min cf (min out.length c.length) ≤ out.length := by omega
  have h2 : min cf (min out.length c.length) ≤ c.length := by omega
  unfold mergeStep
  dsimp only
  split
  · simp only [List.length_append, blendOverlap_length, List.length_take,
      List.length_drop]
    omega
  · simp only [List.length_append]
    omega

theorem foldl_mergeStep_length (cf : Nat) :
    ∀ (rest : List (List ℚ)) (out : List ℚ), cf ≤ out.length →
      (∀ c ∈ rest, cf ≤ c.length) →
      (rest.foldl (mergeStep cf) out).length + rest.length * cf =
        out.length + (rest.map List.length).sum
  | [], out, _, _ => by simp
  | c :: rest, out, hout, hall => by
    have hc : cf ≤ c.length := hall c (by simp)
    have hstep := mergeStep_length cf out c
    have hov : min cf (min out.length c.length) = cf := by omega
    rw [hov] at hstep
    have hge : cf ≤ (mergeStep cf out c).length := by omega
    have ih := foldl_mergeStep_length cf rest (mergeStep cf out c) hge
      (fun d hd => hall d (by simp [hd]))
    simp only [List.foldl_cons, List.map_cons, List.sum_cons, List.length_cons,
      Nat.succ_mul]
    omega

theorem foldl_mergeStep_zero :
    ∀ (rest : List (List ℚ)) (out : List ℚ),
      rest.foldl (mergeStep 0) out = out ++ rest.flatten
  | [], out => by simp
  | c :: rest, out => by
    have h : mergeStep 0 out c = out ++ c := by simp [mergeStep]
    simp [List.foldl_cons, h, foldl_mergeStep_zero rest (out ++ c)]

/-- C3: for a non-empty chunk list in which every chunk holds at least
`crossfade_samples = ⌊sample_rate * crossfade_ms / 1000⌋` samples, the merged
buffer's length is the total sample count minus `(n−1)` crossfade overlaps
(stated additively to avoid truncated subtraction); and with
`crossfade_ms = 0` the merge is plain concatenation. -/
theorem merge_audio_chunks_spec (chunks : List (List ℚ)) (sr ms : Nat)
    (h1 : chunks ≠ [])
    (h2 : ∀ c ∈ chunks, crossfadeSamples sr ms ≤ c.length) :
    (merge_audio_chunks chunks sr ms).length +
        (chunks.length - 1) * crossfadeSamples sr ms
        = (chunks.map List.length).sum ∧
      merge_audio_chunks chunks sr 0 = chunks.flatten := by
  constructor
  · match chunks, h1, h2 with
    | c0 :: rest, _, h2 =>
      have h0 : crossfadeSamples sr ms ≤ c0.length := h2 c0 (by simp)
      have hfold := foldl_mergeStep_length (crossfadeSamples sr ms) rest c0 h0
        (fun d hd => h2 d (by simp [hd]))
      simp only [merge_audio_chunks, List.length_cons, List.map_cons,
        List.sum_cons, Nat.add_sub_cancel]
      omega
  · have hz : crossfadeSamples sr 0 = 0 := by simp [crossfadeSamples]
    match chunks with
    | [] => simp [merge_audio_chunks]
    | c0 :: rest => simp [merge_audio_chunks, hz, foldl_mergeStep_zero]

/-- Witness for C3 at a concrete input: two four-sample chunks at
1000 Hz with a 2 ms crossfade (2 overlap samples). -/
theorem merge_audio_chunks_spec_witness :
    (merge_audio_chunks [[1, 2, 3, 4], [5, 6, 7, 8]] 1000 2).length +
        (([[1, 2, 3, 4], [5, 6, 7, 8]] : List (List ℚ)).length - 1) *
          crossfadeSamples 1000 2
        = (([[1, 2, 3, 4], [5, 6, 7, 8]] : List (List ℚ)).map List.length).sum ∧
      merge_audio_chunks [[1, 2, 3, 4], [5, 6, 7, 8]] 1000 0 =
        ([[1, 2, 3, 4], [5, 6, 7, 8]] : List (List ℚ)).flatten :=
  merge_audio_chunks_spec [[1, 2, 3, 4], [5, 6, 7, 8]] 1000 2 (by simp)
    (by decide)

/-! ### Lemmas: `joinSp` and `pySplit` -/

theorem joinSp_append (A B : List (List Char)) (hA : A ≠ []) (hB : B ≠ []) :
    joinSp (A ++ B) = joinSp A ++ ' ' :: joinSp B := by
  induction A with
  | nil => simp at hA
  | cons x xs ih =>
    cases xs with
    | nil =>
      cases B with
      | nil => simp at hB
      | cons b bs => simp [joinSp]
    | cons y ys =>
      have h := ih (by simp)
      calc joinSp (x :: y :: ys ++ B) = x ++ ' ' :: joinSp (y :: ys ++ B) := rfl
        _ = x ++ ' ' :: (joinSp (y :: ys) ++ ' ' :: joinSp B) := by rw [h]
        _ = (x ++ ' ' :: joinSp (y :: ys)) ++ ' ' :: joinSp B := by
            simp [List.append_assoc]
        _ = joinSp (x :: y :: ys) ++ ' ' :: joinSp B := rfl

theorem joinSp_snoc_length (A : List (List Char)) (w : List Char) (hA : A ≠ []) :
    (joinSp (A ++ [w])).length = (joinSp A).length + 1 + w.length := by
  rw [joinSp_append A [w] hA (by simp)]
  simp [joinSp]
  omega

theorem pySplitAux_words : ∀ (l cur : List Char), (∀ c ∈ cur, isWs c = false) →
    ∀ w ∈ pySplitAux cur l, w ≠ [] ∧ ∀ c ∈ w, isWs c = false
  | [], cur, hcur, w, hw => by
    simp only [pySplitAux] at hw
    split at hw
    · simp at hw
    · rename_i hne
      simp only [List.mem_singleton] at hw
      subst hw
      refine ⟨?_, ?_⟩
      · intro hemp
        apply hne
        have : cur = [] := by simpa using congrArg List.reverse hemp
        simp [this]
      · intro c hc
        exact hcur c (List.mem_reverse.mp hc)
  | c :: rest, cur, hcur, w, hw => by
    simp only [pySplitAux] at hw
    by_cases h1 : isWs c = true
    · rw [if_pos h1] at hw
      by_cases h2 : cur.isEmpty = true
      · rw [if_pos h2] at hw
        exact pySplitAux_words rest [] (by simp) w hw
      · rw [if_neg h2] at hw
        rcases List.mem_cons.mp hw with h | h
        · subst h
          refine ⟨?_, ?_⟩
          · intro hemp
            apply h2
            have : cur = [] := by simpa using congrArg List.reverse hemp
            simp [this]
          · intro d hd
            exact hcur d (List.mem_reverse.mp hd)
        · exact pySplitAux_words rest [] (by simp) w h
    · rw [if_neg h1] at hw
      refine pySplitAux_words rest (c :: cur) ?_ w hw
      intro d hd
      rcases List.mem_cons.mp hd with h | h
      · subst h
        simpa using h1
      · exact hcur d h

theorem pySplit_words (s : List Char) :
    ∀ w ∈ pySplit s, w ≠ [] ∧ ∀ c ∈ w, isWs c = false :=
  pySplitAux_words s [] (by simp)

/-! ### Lemmas: chunk-size bound (C1) -/

/-- The bound every produced chunk satisfies: at most `maxChars` long, or a
single whitespace-free word (the unavoidable hard-split overflow). -/
def ChunkOk (maxChars : Nat) (ch : List Char) : Prop :=
  ch.length ≤ maxChars ∨ (maxChars < ch.length ∧ ∀ c ∈ ch, isWs c = false)

theorem hardSplitKokoro_bound (maxChars : Nat) :
    ∀ (ws temp : List (List Char)) (tempLen : Nat),
      (∀ w ∈ ws, w ≠ [] ∧ ∀ c ∈ w, isWs c = false) →
      (∀ w ∈ temp, ∀ c ∈ w, isWs c = false) →
      (joinSp temp).length ≤ tempLen →
      ((joinSp temp).length ≤ maxChars ∨ ∃ w, temp = [w]) →
      ∀ ch ∈ hardSplitKokoro maxChars ws temp tempLen, ChunkOk maxChars ch
  | [], temp, tempLen, _, htempc, _, hdisj, ch, hch => by
    simp only [hardSplitKokoro] at hch
    split at hch
    · simp at hch
    · simp only [List.mem_singleton] at hch
      subst hch
      rcases hdisj with h | ⟨w, rfl⟩
      · exact Or.inl h
      · by_cases hlen : (joinSp [w]).length ≤ maxChars
        · exact Or.inl hlen
        · refine Or.inr ⟨by omega, ?_⟩
          intro c hc
          exact htempc w (by simp) c (by simpa [joinSp] using hc)
  | w :: ws, temp, tempLen, hws, htempc, hlen, hdisj, ch, hch => by
    have hw := hws w (by simp)
    have hws2 : ∀ v ∈ ws, v ≠ [] ∧ ∀ c ∈ v, isWs c = false :=
      fun v hv => hws v (by simp [hv])
    simp only [hardSplitKokoro] at hch
    split at hch
    · rcases List.mem_cons.mp hch with h | h
      · subst h
        rcases hdisj with hle | ⟨v, rfl⟩
        · exact Or.inl hle
        · by_cases hl : (joinSp [v]).length ≤ maxChars
          · exact Or.inl hl
          · refine Or.inr ⟨by omega, ?_⟩
            intro c hc
            exact htempc v (by simp) c (by simpa [joinSp] using hc)
      · refine hardSplitKokoro_bound maxChars ws [w] w.length hws2 ?_ ?_ ?_ ch h
        · intro v hv
          simp only [List.mem_singleton] at hv
          subst hv
          exact hw.2
        · simp [joinSp]
        · by_cases hl : (joinSp [w]).length ≤ maxChars
          · exact Or.inl hl
          · exact Or.inr ⟨w, rfl⟩
    · rename_i hcond
      refine hardSplitKokoro_bound maxChars ws (temp ++ [w]) (tempLen + w.length + 1)
        hws2 ?_ ?_ ?_ ch hch
      · intro v hv
        rcases List.mem_append.mp hv with h | h
        · exact htempc v h
        · simp only [List.mem_singleton] at h
          subst h
          exact hw.2
      · by_cases hte : temp = []
        · subst hte
          simp only [List.nil_append, joinSp]
          omega
        · rw [joinSp_snoc_length temp w hte]
          omega
      · by_cases hte : temp = []
        · subst hte
          exact Or.inr ⟨w, by simp⟩
        · left
          rw [joinSp_snoc_length temp w hte]
          have : ¬ (tempLen + w.length + 1 > maxChars ∧ ¬ temp.isEmpty) := hcond
          have hni : ¬ temp.isEmpty := by simp [List.isEmpty_iff, hte]
          have : tempLen + w.length + 1 ≤ maxChars := by
            by_contra hgt
            exact this ⟨by omega, hni⟩
          omega

theorem hardSplitSmart_bound (maxChars : Nat) :
    ∀ (ws temp : List (List Char)) (tempLen : Nat),
      (∀ w ∈ ws, w ≠ [] ∧ ∀ c ∈ w, isWs c = false) →
      (∀ w ∈ temp, ∀ c ∈ w, isWs c = false) →
      (joinSp temp).length ≤ tempLen →
      (temp ≠ [] → 1 ≤ (joinSp temp).length) →
      ((joinSp temp).length ≤ maxChars ∨ ∃ w, temp = [w]) →
      ∀ ch ∈ hardSplitSmart maxChars ws temp tempLen, ChunkOk maxChars ch
  | [], temp, tempLen, _, htempc, _, _, hdisj, ch, hch => by
    simp only [hardSplitSmart] at hch
    split at hch
    · simp at hch
    · simp only [List.mem_singleton] at hch
      subst hch
      rcases hdisj with h | ⟨w, rfl⟩
      · exact Or.inl h
      · by_cases hlen : (joinSp [w]).length ≤ maxChars
        · exact Or.inl hlen
        · refine Or.inr ⟨by omega, ?_⟩
          intro c hc
          exact htempc w (by simp) c (by simpa [joinSp] using hc)
  | w :: ws, temp, tempLen, hws, htempc, hlen, hne, hdisj, ch, hch => by
    have hw := hws w (by simp)
    have hws2 : ∀ v ∈ ws, v ≠ [] ∧ ∀ c ∈ v, isWs c = false :=
      fun v hv => hws v (by simp [hv])
    simp only [hardSplitSmart] at hch
    split at hch
    · rcases List.mem_cons.mp hch with h | h
      · subst h
        rcases hdisj with hle | ⟨v, rfl⟩
        · exact Or.inl hle
        · by_cases hl : (joinSp [v]).length ≤ maxChars
          · exact Or.inl hl
          · refine Or.inr ⟨by omega, ?_⟩
            intro c hc
            exact htempc v (by simp) c (by simpa [joinSp] using hc)
      · refine hardSplitSmart_bound maxChars ws [w] w.length hws2 ?_ ?_ ?_ ?_ ch h
        · intro v hv
          simp only [List.mem_singleton] at hv
          subst hv
          exact hw.2
        · simp [joinSp]
        · intro _
          simp only [joinSp]
          have := hw.1
          cases w with
          | nil => simp at this
          | cons a t => simp
        · by_cases hl : (joinSp [w]).length ≤ maxChars
          · exact Or.inl hl
          · exact Or.inr ⟨w, rfl⟩
    · rename_i hcond
      refine hardSplitSmart_bound maxChars ws (temp ++ [w])
        (tempLen + w.length + (if tempLen ≠ 0 then 1 else 0)) hws2 ?_ ?_ ?_ ?_ ch hch
      · intro v hv
        rcases List.mem_append.mp hv with h | h
        · exact htempc v h
        · simp only [List.mem_singleton] at h
          subst h
          exact hw.2
      · by_cases hte : temp = []
        · subst hte
          simp only [List.nil_append, joinSp]
          split <;> omega
        · rw [joinSp_snoc_length temp w hte]
          have h1 : 1 ≤ (joinSp temp).length := hne hte
          have h2 : tempLen ≠ 0 := by omega
          rw [if_pos h2]
          omega
      · intro _
        by_cases hte : temp = []
        · subst hte
          simp only [List.nil_append, joinSp]
          have := hw.1
          cases w with
          | nil => simp at this
          | cons a t => simp
        · rw [joinSp_snoc_length temp w hte]
          omega
      · by_cases hte : temp = []
        · subst hte
          exact Or.inr ⟨w, by simp⟩
        · left
          rw [joinSp_snoc_length temp w hte]
          have hni : ¬ temp.isEmpty := by simp [List.isEmpty_iff, hte]
          have hle2 : tempLen + w.length + 1 ≤ maxChars := by
            by_contra hgt
            exact hcond ⟨by omega, hni⟩
          omega

theorem chunkLoopKokoro_bound (maxChars : Nat) :
    ∀ (ss cur : List (List Char)) (curLen : Nat),
      (joinSp cur).length ≤ curLen →
      (joinSp cur).length ≤ maxChars →
      ∀ ch ∈ chunkLoopKokoro maxChars ss cur curLen, ChunkOk maxChars ch
  | [], cur, curLen, _, hbound, ch, hch => by
    simp only [chunkLoopKokoro] at hch
    split at hch
    · simp at hch
    · simp only [List.mem_singleton] at hch
      subst hch
      exact Or.inl hbound
  | s :: ss, cur, curLen, hlen, hbound, ch, hch => by
    simp only [chunkLoopKokoro] at hch
    split at hch
    · rcases List.mem_append.mp hch with h | h
      · rcases List.mem_append.mp h with h1 | h1
        · split at h1
          · simp at h1
          · simp only [List.mem_singleton] at h1
            subst h1
            exact Or.inl hbound
        · exact hardSplitKokoro_bound maxChars (pySplit s) [] 0 (pySplit_words s)
            (by simp) (by simp [joinSp]) (Or.inl (by simp [joinSp])) ch h1
      · exact chunkLoopKokoro_bound maxChars ss [] 0 (by simp [joinSp])
          (by simp [joinSp]) ch h
    · rename_i hgt
      split at hch
      · rcases List.mem_cons.mp hch with h | h
        · subst h
          exact Or.inl hbound
        · refine chunkLoopKokoro_bound maxChars ss [s] s.length (by simp [joinSp])
            ?_ ch h
          simp only [joinSp]
          omega
      · rename_i hcond
        refine chunkLoopKokoro_bound maxChars ss (cur ++ [s])
          (curLen + s.length + 1) ?_ ?_ ch hch
        · by_cases hce : cur = []
          · subst hce
            simp only [List.nil_append, joinSp]
            omega
          · rw [joinSp_snoc_length cur s hce]
            omega
        · by_cases hce : cur = []
          · subst hce
            simp only [List.nil_append, joinSp]
            omega
          · rw [joinSp_snoc_length cur s hce]
            have hni : ¬ cur.isEmpty := by simp [List.isEmpty_iff, hce]
            have hle2 : curLen + s.length + 1 ≤ maxChars := by
              by_contra hgt2
              exact hcond ⟨by omega, hni⟩
            omega

theorem chunkLoopSmart_bound (maxChars : Nat) :
    ∀ (ss cur : List (List Char)) (curLen : Nat),
      (joinSp cur).length ≤ curLen →
      (joinSp cur).length ≤ maxChars →
      (cur ≠ [] → 1 ≤ (joinSp cur).length) →
      ∀ ch ∈ chunkLoopSmart maxChars ss cur curLen, ChunkOk maxChars ch
  | [], cur, curLen, _, hbound, _, ch, hch => by
    simp only [chunkLoopSmart] at hch
    split at hch
    · simp at hch
    · simp only [List.mem_singleton] at hch
      subst hch
      exact Or.inl hbound
  | s0 :: ss, cur, curLen, hlen, hbound, hne, ch, hch => by
    simp only [chunkLoopSmart] at hch
    by_cases hemp : (stripWs s0).isEmpty = true
    · rw [if_pos hemp] at hch
      exact chunkLoopSmart_bound maxChars ss cur curLen hlen hbound hne ch hch
    · rw [if_neg hemp] at hch
      have hsne : stripWs s0 ≠ [] := by
        intro hq
        exact hemp (by simp [hq])
      have hslen : 1 ≤ (stripWs s0).length := by
        cases hq : stripWs s0 with
        | nil => exact absurd hq hsne
        | cons a t => simp
      by_cases hlong : (stripWs s0).length > maxChars
      · rw [if_pos hlong] at hch
        rcases List.mem_append.mp hch with h | h
        · rcases List.mem_append.mp h with h1 | h1
          · split at h1
            · simp at h1
            · simp only [List.mem_singleton] at h1
              subst h1
              exact Or.inl hbound
          · exact hardSplitSmart_bound maxChars (pySplit (stripWs s0)) [] 0
              (pySplit_words (stripWs s0)) (by simp) (by simp [joinSp])
              (by simp) (Or.inl (by simp [joinSp])) ch h1
        · exact chunkLoopSmart_bound maxChars ss [] 0 (by simp [joinSp])
            (by simp [joinSp]) (by simp) ch h
      · rw [if_neg hlong] at hch
        rcases Nat.eq_zero_or_pos curLen with hz | hpos
        · have hind : (if curLen ≠ 0 then 1 else 0) = 0 := by
            rw [if_neg]
            omega
          rw [hind] at hch
          have hcur : cur = [] := by
            by_contra hc
            have := hne hc
            omega
          subst hcur
          have hcond : ¬ (curLen + (stripWs s0).length + 0 > maxChars ∧
              ¬ (List.isEmpty ([] : List (List Char))) = true) := by
            simp
          rw [if_neg hcond] at hch
          refine chunkLoopSmart_bound maxChars ss [stripWs s0]
            (curLen + (stripWs s0).length + 0) ?_ ?_ ?_ ch hch
          · simp only [joinSp]
            omega
          · simp only [joinSp]
            omega
          · intro _
            simp only [joinSp]
            omega
        · have hind : (if curLen ≠ 0 then 1 else 0) = 1 := by
            rw [if_pos]
            omega
          rw [hind] at hch
          by_cases hcond : curLen + (stripWs s0).length + 1 > maxChars ∧
              ¬ cur.isEmpty = true
          · rw [if_pos hcond] at hch
            rcases List.mem_cons.mp hch with h | h
            · subst h
              exact Or.inl hbound
            · refine chunkLoopSmart_bound maxChars ss [stripWs s0]
                (stripWs s0).length (by simp [joinSp]) ?_ ?_ ch h
              · simp only [joinSp]
                omega
              · intro _
                simp only [joinSp]
                omega
          · rw [if_neg hcond] at hch
            refine chunkLoopSmart_bound maxChars ss (cur ++ [stripWs s0])
              (curLen + (stripWs s0).length + 1) ?_ ?_ ?_ ch hch
            · by_cases hce : cur = []
              · subst hce
                simp only [List.nil_append, joinSp]
                omega
              · rw [joinSp_snoc_length cur (stripWs s0) hce]
                omega
            · by_cases hce : cur = []
              · subst hce
                simp only [List.nil_append, joinSp]
                omega
              · rw [joinSp_snoc_length cur (stripWs s0) hce]
                have hni : ¬ cur.isEmpty = true := by
                  simp [List.isEmpty_iff, hce]
                have hle2 : curLen + (stripWs s0).length + 1 ≤ maxChars := by
                  by_contra hgt2
                  exact hcond ⟨by omega, hni⟩
                omega
            · intro _
              by_cases hce : cur = []
              · subst hce
                simp only [List.nil_append, joinSp]
                omega
              · rw [joinSp_snoc_length cur (stripWs s0) hce]
                have h1 : 1 ≤ (joinSp cur).length := hne hce
                omega

/-- C1: for every input text and `max_chars > 0`, every chunk produced by
either chunk builder (`chunk_text_for_kokoro` in `audiobook.py`,
`smart_chunk_text` in `text_chunking.py`) is at most `max_chars` long,
except when the chunk is a single whitespace-free word longer than
`max_chars` (the hard-split overflow); over-long sentences are split only
at word boundaries. -/
theorem chunkers_respect_max_chars (text : List Char) (maxChars : Nat)
    (_hmax : 0 < maxChars) :
    (∀ ch ∈ chunk_text_for_kokoro text maxChars,
        ch.length ≤ maxChars ∨ (maxChars < ch.length ∧ ∀ c ∈ ch, isWs c = false)) ∧
    (∀ ch ∈ smart_chunk_text text maxChars,
        ch.length ≤ maxChars ∨ (maxChars < ch.length ∧ ∀ c ∈ ch, isWs c = false)) := by
  constructor
  · intro ch hch
    exact chunkLoopKokoro_bound maxChars (split_into_sentences_regex text) [] 0
      (by simp [joinSp]) (by simp [joinSp]) ch hch
  · intro ch hch
    simp only [smart_chunk_text] at hch
    split at hch
    · simp at hch
    · exact chunkLoopSmart_bound maxChars
        (tc_split_into_sentences_regex (normalizeWs text)) [] 0
        (by simp [joinSp]) (by simp [joinSp]) (by simp) ch hch

/-- Witness for C1 at the spec's own scenario text with `max_chars = 20`. -/
theorem chunkers_respect_max_chars_witness :
    (∀ ch ∈ chunk_text_for_kokoro
        ("Hello. This is chunk two. And chunk three.".data) 20,
        ch.length ≤ 20 ∨ (20 < ch.length ∧ ∀ c ∈ ch, isWs c = false)) ∧
    (∀ ch ∈ smart_chunk_text
        ("Hello. This is chunk two. And chunk three.".data) 20,
        ch.length ≤ 20 ∨ (20 < ch.length ∧ ∀ c ∈ ch, isWs c = false)) :=
  chunkers_respect_max_chars ("Hello. This is chunk two. And chunk three.".data)
    20 (by omega)

/-! ### Lemmas: the shape of whitespace-normalized text (for C2) -/

mutual
/-- `l` is a space-joined sequence of at least one nonempty whitespace-free
word: the shape of nonempty whitespace-normalized text. -/
def spacedOk : List Char → Bool
  | [] => false
  | c :: rest => !isWs c && spacedOkCont rest

/-- Continuation form of `spacedOk`: what may follow a word character. -/
def spacedOkCont : List Char → Bool
  | [] => true
  | c :: rest => if isWs c then c == ' ' && spacedOk rest else spacedOkCont rest
end

/-- Every whitespace character in `l` is a plain space. -/
def onlySpaceWs (l : List Char) : Prop := ∀ c ∈ l, isWs c = true → c = ' '

/-- No two adjacent whitespace characters. -/
def noTwoWs : List Char → Prop
  | a :: b :: rest => ¬(isWs a = true ∧ isWs b = true) ∧ noTwoWs (b :: rest)
  | _ => True

/-- The first character, if any, is not whitespace. -/
def headNonWs : List Char → Prop
  | [] => True
  | c :: _ => isWs c = false

/-- The last character, if any, is not whitespace. -/
def lastNonWs : List Char → Prop
  | [] => True
  | [c] => isWs c = false
  | _ :: c :: rest => lastNonWs (c :: rest)

theorem lastNonWs_cons (a : Char) (l : List Char) (h : l ≠ []) :
    lastNonWs (a :: l) = lastNonWs l := by
  cases l with
  | nil => exact absurd rfl h
  | cons b r => rfl

theorem noTwoWs_tail (a : Char) (l : List Char) (h : noTwoWs (a :: l)) :
    noTwoWs l := by
  cases l with
  | nil => trivial
  | cons b r => exact h.2

theorem spacedOk_of_conds_aux :
    ∀ n, ∀ l : List Char, l.length ≤ n →
      (noTwoWs l → onlySpaceWs l → lastNonWs l → spacedOkCont l = true) ∧
      (l ≠ [] → headNonWs l → noTwoWs l → onlySpaceWs l → lastNonWs l →
        spacedOk l = true)
  | 0, l, hl => by
    have hnil : l = [] := by cases l <;> simp at hl ⊢
    subst hnil
    exact ⟨fun _ _ _ => rfl, fun h => absurd rfl h⟩
  | n + 1, [], _ => ⟨fun _ _ _ => rfl, fun h => absurd rfl h⟩
  | n + 1, c :: rest, hl => by
    have hrest : rest.length ≤ n := by simpa using hl
    have hlr : lastNonWs (c :: rest) → lastNonWs rest := by
      intro hln
      cases rest with
      | nil => trivial
      | cons d r => rwa [lastNonWs_cons c (d :: r) (by simp)] at hln
    constructor
    · intro hnt hos hln
      by_cases hw : isWs c = true
      · have hc : c = ' ' := hos c (by simp) hw
        cases rest with
        | nil =>
          exfalso
          have : isWs c = false := hln
          rw [this] at hw
          exact Bool.false_ne_true hw
        | cons d r =>
          have hd : isWs d = false := by
            rcases hnt with ⟨hpair, _⟩
            by_cases h2 : isWs d = true
            · exact absurd ⟨hw, h2⟩ hpair
            · simpa using h2
          have hok := (spacedOk_of_conds_aux n (d :: r) hrest).2 (by simp)
            (by simpa [headNonWs] using hd) (noTwoWs_tail c _ hnt)
            (fun x hx hwx => hos x (by simp [hx]) hwx) (hlr hln)
          simp only [spacedOkCont, hw, if_true]
          rw [hok, hc]
          simp
      · have hcont := (spacedOk_of_conds_aux n rest hrest).1 (noTwoWs_tail c _ hnt)
          (fun x hx hwx => hos x (by simp [hx]) hwx) (hlr hln)
        simp [spacedOkCont, hw, hcont]
    · intro _ hh hnt hos hln
      have hwc : isWs c = false := hh
      have hcont := (spacedOk_of_conds_aux n rest hrest).1 (noTwoWs_tail c _ hnt)
        (fun x hx hwx => hos x (by simp [hx]) hwx) (hlr hln)
      simp [spacedOk, hwc, hcont]

theorem spacedOk_of_conds {l : List Char} (h0 : l ≠ []) (h1 : headNonWs l)
    (h2 : noTwoWs l) (h3 : onlySpaceWs l) (h4 : lastNonWs l) :
    spacedOk l = true :=
  (spacedOk_of_conds_aux l.length l le_rfl).2 h0 h1 h2 h3 h4

theorem spacedOk_ne_nil {l : List Char} (h : spacedOk l = true) : l ≠ [] := by
  intro he
  subst he
  simp [spacedOk] at h

theorem spacedOk_headNonWs {l : List Char} (h : spacedOk l = true) :
    headNonWs l := by
  cases l with
  | nil => trivial
  | cons c rest =>
    simp only [spacedOk, Bool.and_eq_true, Bool.not_eq_true'] at h
    exact h.1

theorem spacedOk_last_aux :
    ∀ n, ∀ l : List Char, l.length ≤ n →
      (spacedOkCont l = true → lastNonWs l) ∧
      (spacedOk l = true → lastNonWs l)
  | 0, l, hl => by
    have hnil : l = [] := by cases l <;> simp at hl ⊢
    subst hnil
    exact ⟨fun _ => trivial, fun _ => trivial⟩
  | n + 1, [], _ => ⟨fun _ => trivial, fun _ => trivial⟩
  | n + 1, c :: rest, hl => by
    have hrest : rest.length ≤ n := by simpa using hl
    have lift : lastNonWs rest → rest ≠ [] → lastNonWs (c :: rest) := by
      intro h hne
      rwa [lastNonWs_cons c rest hne]
    constructor
    · intro hc
      by_cases hw : isWs c = true
      · simp only [spacedOkCont, hw, if_true, Bool.and_eq_true, beq_iff_eq] at hc
        have hok := hc.2
        have hne := spacedOk_ne_nil hok
        exact lift ((spacedOk_last_aux n rest hrest).2 hok) hne
      · simp only [spacedOkCont, hw] at hc
        rw [if_neg (by simp [hw])] at hc
        cases rest with
        | nil => simpa [lastNonWs] using hw
        | cons d r =>
          exact lift ((spacedOk_last_aux n (d :: r) hrest).1 hc) (by simp)
    · intro hc
      simp only [spacedOk, Bool.and_eq_true, Bool.not_eq_true'] at hc
      cases rest with
      | nil => exact hc.1
      | cons d r =>
        exact lift ((spacedOk_last_aux n (d :: r) hrest).1 hc.2) (by simp)

theorem spacedOk_lastNonWs {l : List Char} (h : spacedOk l = true) :
    lastNonWs l :=
  (spacedOk_last_aux l.length l le_rfl).2 h

theorem dropWhile_headNonWs {l : List Char} (h : headNonWs l) :
    l.dropWhile isWs = l := by
  cases l with
  | nil => rfl
  | cons c rest =>
    have : isWs c = false := h
    simp [List.dropWhile_cons, this]

theorem dropTrailingWs_lastNonWs :
    ∀ l : List Char, lastNonWs l → dropTrailingWs l = l
  | [], _ => rfl
  | c :: rest, h => by
    cases rest with
    | nil =>
      have hc : isWs c = false := h
      simp [dropTrailingWs, hc]
    | cons d r =>
      have hr : dropTrailingWs (d :: r) = d :: r :=
        dropTrailingWs_lastNonWs (d :: r)
          (by rwa [lastNonWs_cons c (d :: r) (by simp)] at h)
      rw [dropTrailingWs]
      simp only [hr]
      simp

theorem stripWs_fix {l : List Char} (hh : headNonWs l) (hl : lastNonWs l) :
    stripWs l = l := by
  unfold stripWs
  rw [dropWhile_headNonWs hh, dropTrailingWs_lastNonWs l hl]

theorem collapse_fix_aux :
    ∀ n, ∀ l : List Char, l.length ≤ n →
      (spacedOkCont l = true → collapseWs l = l) ∧
      (spacedOk l = true → collapseWs l = l)
  | 0, l, hl => by
    have hnil : l = [] := by cases l <;> simp at hl ⊢
    subst hnil
    exact ⟨fun _ => by rw [collapseWs], fun _ => by rw [collapseWs]⟩
  | n + 1, [], _ =>
    ⟨fun _ => by rw [collapseWs], fun _ => by rw [collapseWs]⟩
  | n + 1, c :: rest, hl => by
    have hrest : rest.length ≤ n := by simpa using hl
    constructor
    · intro hc
      by_cases hw : isWs c = true
      · simp only [spacedOkCont, hw, if_true, Bool.and_eq_true, beq_iff_eq] at hc
        obtain ⟨hsp, hok⟩ := hc
        have hdw : rest.dropWhile isWs = rest :=
          dropWhile_headNonWs (spacedOk_headNonWs hok)
        have hcr : collapseWs rest = rest := (collapse_fix_aux n rest hrest).2 hok
        rw [collapseWs, if_pos hw, hdw, hcr, hsp]
      · have hcr : collapseWs rest = rest := by
          refine (collapse_fix_aux n rest hrest).1 ?_
          simpa [spacedOkCont, hw] using hc
        rw [collapseWs, if_neg (by simp [hw]), hcr]
    · intro hc
      simp only [spacedOk, Bool.and_eq_true, Bool.not_eq_true'] at hc
      have hcr : collapseWs rest = rest := (collapse_fix_aux n rest hrest).1 hc.2
      rw [collapseWs, if_neg (by simp [hc.1]), hcr]

theorem spacedOk_fix {l : List Char} (h : spacedOk l = true) :
    normalizeWs l = l := by
  unfold normalizeWs
  rw [(collapse_fix_aux l.length l le_rfl).2 h,
    stripWs_fix (spacedOk_headNonWs h) (spacedOk_lastNonWs h)]

theorem onlySpace_collapseWs : ∀ l : List Char, onlySpaceWs (collapseWs l)
  | [] => by
    rw [collapseWs]
    intro c hc
    simp at hc
  | c :: rest => by
    by_cases hw : isWs c = true
    · rw [collapseWs, if_pos hw]
      intro d hd hwd
      rcases List.mem_cons.mp hd with h | h
      · exact h
      · exact onlySpace_collapseWs (rest.dropWhile isWs) d h hwd
    · rw [collapseWs, if_neg (by simp [hw])]
      intro d hd hwd
      rcases List.mem_cons.mp hd with h | h
      · subst h
        exact absurd hwd hw
      · exact onlySpace_collapseWs rest d h hwd
termination_by l => l.length
decreasing_by
  · exact Nat.lt_succ_of_le (lenDropWhileLe isWs rest)
  · simp

theorem headNonWs_dropWhile (l : List Char) : headNonWs (l.dropWhile isWs) := by
  induction l with
  | nil => trivial
  | cons c rest ih =>
    rw [List.dropWhile_cons]
    split
    · exact ih
    · rename_i h
      simpa [headNonWs] using h

theorem headNonWs_collapseWs (l : List Char) (h : headNonWs l) :
    headNonWs (collapseWs l) := by
  cases l with
  | nil =>
    rw [collapseWs]
    trivial
  | cons c rest =>
    have hc : isWs c = false := h
    rw [collapseWs, if_neg (by simp [hc])]
    exact hc

theorem noTwo_collapseWs : ∀ l : List Char, noTwoWs (collapseWs l)
  | [] => by
    rw [collapseWs]
    trivial
  | c :: rest => by
    by_cases hw : isWs c = true
    · rw [collapseWs, if_pos hw]
      have hrec := noTwo_collapseWs (rest.dropWhile isWs)
      have hh : headNonWs (collapseWs (rest.dropWhile isWs)) :=
        headNonWs_collapseWs _ (headNonWs_dropWhile rest)
      cases hX : collapseWs (rest.dropWhile isWs) with
      | nil => trivial
      | cons d r =>
        rw [hX] at hrec hh
        refine ⟨?_, hrec⟩
        rintro ⟨_, hd⟩
        have : isWs d = false := hh
        rw [this] at hd
        exact Bool.false_ne_true hd
    · rw [collapseWs, if_neg (by simp [hw])]
      have hrec := noTwo_collapseWs rest
      cases hX : collapseWs rest with
      | nil => trivial
      | cons d r =>
        rw [hX] at hrec
        refine ⟨?_, hrec⟩
        rintro ⟨hcw, _⟩
        exact hw hcw
termination_by l => l.length
decreasing_by
  · exact Nat.lt_succ_of_le (lenDropWhileLe isWs rest)
  · simp

theorem noTwo_dropWhile (p : Char → Bool) :
    ∀ l : List Char, noTwoWs l → noTwoWs (l.dropWhile p)
  | [], h => h
  | c :: rest, h => by
    rw [List.dropWhile_cons]
    split
    · exact noTwo_dropWhile p rest (noTwoWs_tail c rest h)
    · exact h

theorem mem_dropWhile (p : Char → Bool) :
    ∀ l : List Char, ∀ c ∈ l.dropWhile p, c ∈ l
  | [], c, hc => by simp at hc
  | a :: rest, c, hc => by
    rw [List.dropWhile_cons] at hc
    split at hc
    · exact List.mem_cons_of_mem a (mem_dropWhile p rest c hc)
    · exact hc

theorem dropTrailing_cons_shape (d : Char) (r : List Char) :
    dropTrailingWs (d :: r) = [] ∨
      ∃ r2, dropTrailingWs (d :: r) = d :: r2 := by
  rw [dropTrailingWs]
  split
  · exact Or.inl rfl
  · exact Or.inr ⟨dropTrailingWs r, rfl⟩

theorem noTwo_dropTrailing : ∀ l : List Char, noTwoWs l → noTwoWs (dropTrailingWs l)
  | [], _ => trivial
  | c :: rest, h => by
    rw [dropTrailingWs]
    split
    · trivial
    · have hrec := noTwo_dropTrailing rest (noTwoWs_tail c rest h)
      cases rest with
      | nil => trivial
      | cons d r =>
        rcases dropTrailing_cons_shape d r with h0 | ⟨r2, hr2⟩
        · rw [h0]
          trivial
        · rw [hr2]
          rw [hr2] at hrec
          exact ⟨h.1, hrec⟩

theorem mem_dropTrailing : ∀ l : List Char, ∀ c ∈ dropTrailingWs l, c ∈ l
  | [], c, hc => by
    rw [dropTrailingWs] at hc
    simp at hc
  | a :: rest, c, hc => by
    rw [dropTrailingWs] at hc
    split at hc
    · simp at hc
    · rcases List.mem_cons.mp hc with h | h
      · simp [h]
      · exact List.mem_cons_of_mem a (mem_dropTrailing rest c h)

theorem lastNonWs_dropTrailing : ∀ l : List Char, lastNonWs (dropTrailingWs l)
  | [] => trivial
  | c :: rest => by
    rw [dropTrailingWs]
    by_cases hcond : ((dropTrailingWs rest).isEmpty && isWs c) = true
    · rw [if_pos hcond]
      trivial
    · rw [if_neg hcond]
      have hrec := lastNonWs_dropTrailing rest
      cases hX : dropTrailingWs rest with
      | nil =>
        have hc : isWs c = false := by
          rw [hX] at hcond
          simpa using hcond
        exact hc
      | cons d r =>
        rw [hX] at hrec
        rwa [lastNonWs_cons c (d :: r) (by simp)]

theorem headNonWs_dropTrailing : ∀ l : List Char, headNonWs l →
    headNonWs (dropTrailingWs l)
  | [], _ => trivial
  | c :: rest, h => by
    rw [dropTrailingWs]
    split
    · trivial
    · exact h

/-- Nonempty whitespace-normalized text has the `spacedOk` shape. -/
theorem spacedOk_normalizeWs (x : List Char) (h : normalizeWs x ≠ []) :
    spacedOk (normalizeWs x) = true := by
  refine spacedOk_of_conds h ?_ ?_ ?_ ?_
  · exact headNonWs_dropTrailing _ (headNonWs_dropWhile _)
  · exact noTwo_dropTrailing _ (noTwo_dropWhile _ _ (noTwo_collapseWs x))
  · intro c hc hw
    exact onlySpace_collapseWs x c
      (mem_dropWhile _ _ c (mem_dropTrailing _ c hc)) hw
  · exact lastNonWs_dropTrailing _

theorem spacedOk_split_aux :
    ∀ (n : Nat) (A : List Char), A.length ≤ n → ∀ B : List Char,
      (spacedOk (A ++ ' ' :: B) = true → spacedOk A = true ∧ spacedOk B = true) ∧
      (spacedOkCont (A ++ ' ' :: B) = true →
        spacedOkCont A = true ∧ spacedOk B = true)
  | _, [], _, B => by
    constructor
    · intro h
      exfalso
      simp only [List.nil_append, spacedOk, Bool.and_eq_true,
        Bool.not_eq_true'] at h
      exact absurd h.1 (by simp [isWs])
    · intro h
      simp only [List.nil_append, spacedOkCont] at h
      rw [if_pos (by simp [isWs])] at h
      simp only [Bool.and_eq_true, beq_iff_eq] at h
      exact ⟨rfl, h.2⟩
  | 0, c :: A2, hA, B => by simp at hA
  | n + 1, c :: A2, hA, B => by
    have hA2 : A2.length ≤ n := by simpa using hA
    constructor
    · intro h
      simp only [List.cons_append, spacedOk, Bool.and_eq_true,
        Bool.not_eq_true'] at h
      obtain ⟨hc, hcont⟩ := h
      have hr := (spacedOk_split_aux n A2 hA2 B).2 hcont
      refine ⟨?_, hr.2⟩
      simp only [spacedOk, Bool.and_eq_true, Bool.not_eq_true']
      exact ⟨hc, hr.1⟩
    · intro h
      simp only [List.cons_append, spacedOkCont] at h
      by_cases hw : isWs c = true
      · rw [if_pos hw] at h
        simp only [Bool.and_eq_true, beq_iff_eq] at h
        obtain ⟨hsp, hok⟩ := h
        have hr := (spacedOk_split_aux n A2 hA2 B).1 hok
        refine ⟨?_, hr.2⟩
        simp only [spacedOkCont, hw, if_true, Bool.and_eq_true, beq_iff_eq]
        exact ⟨hsp, hr.1⟩
      · rw [if_neg hw] at h
        have hr := (spacedOk_split_aux n A2 hA2 B).2 h
        refine ⟨?_, hr.2⟩
        simp only [spacedOkCont]
        rw [if_neg hw]
        exact hr.1

theorem splitHere_shape {c : Char} {rest : List Char}
    (h : splitHere c rest = true) :
    ∃ u r2, rest = ' ' :: u :: r2 ∧ isSentEnd c = true ∧ isUpper u = true := by
  unfold splitHere at h
  match rest, h with
  | sp :: u :: r2, h => ?_
  simp only [Bool.and_eq_true, beq_iff_eq] at h
  obtain ⟨⟨hsp, hend⟩, hup⟩ := h
  exact ⟨u, r2, by rw [hsp], hend, hup⟩

theorem joinSp_cons_ne (x : List Char) (L : List (List Char)) (h : L ≠ []) :
    joinSp (x :: L) = x ++ ' ' :: joinSp L := by
  cases L with
  | nil => exact absurd rfl h
  | cons y r => rfl

theorem splitSentAux_ne : ∀ (n : Nat) (t : List Char), t.length ≤ n → ∀ acc,
    splitSentAux acc t ≠ []
  | _, [], _, acc => by
    rw [splitSentAux]
    simp
  | 0, c :: rest, h, acc => by simp at h
  | n + 1, c :: rest, h, acc => by
    rw [splitSentAux]
    by_cases hs : splitHere c rest = true
    · rw [if_pos hs]
      simp
    · rw [if_neg hs]
      exact splitSentAux_ne n rest (by simpa using h) (acc ++ [c])

theorem splitSentAux_join : ∀ (n : Nat) (t : List Char), t.length ≤ n → ∀ acc,
    joinSp (splitSentAux acc t) = acc ++ t
  | _, [], _, acc => by
    rw [splitSentAux]
    simp [joinSp]
  | 0, c :: rest, h, acc => by simp at h
  | n + 1, c :: rest, h, acc => by
    rw [splitSentAux]
    by_cases hs : splitHere c rest = true
    · rw [if_pos hs]
      obtain ⟨u, r2, hrest, _, _⟩ := splitHere_shape hs
      subst hrest
      have hlen : (u :: r2).length ≤ n := by
        simp only [List.length_cons] at h ⊢
        omega
      have hne := splitSentAux_ne n (u :: r2) hlen []
      show joinSp ((acc ++ [c]) :: splitSentAux [] (u :: r2)) = _
      rw [joinSp_cons_ne _ _ hne, splitSentAux_join n (u :: r2) hlen []]
      simp
    · rw [if_neg hs]
      rw [splitSentAux_join n rest (by simpa using h) (acc ++ [c])]
      simp

theorem splitSentAux_spacedOk :
    ∀ (n : Nat) (t : List Char), t.length ≤ n → ∀ acc,
      spacedOk (acc ++ t) = true →
      ∀ p ∈ splitSentAux acc t, spacedOk p = true
  | _, [], _, acc, hok, p, hp => by
    rw [splitSentAux] at hp
    simp only [List.mem_singleton] at hp
    subst hp
    simpa using hok
  | 0, c :: rest, h, _, _, _, _ => by simp at h
  | n + 1, c :: rest, h, acc, hok, p, hp => by
    rw [splitSentAux] at hp
    by_cases hs : splitHere c rest = true
    · rw [if_pos hs] at hp
      obtain ⟨u, r2, hrest, _, _⟩ := splitHere_shape hs
      subst hrest
      have hre : acc ++ c :: ' ' :: u :: r2 = (acc ++ [c]) ++ ' ' :: u :: r2 := by
        simp
      rw [hre] at hok
      have hsplit := (spacedOk_split_aux (acc ++ [c]).length _ le_rfl
        (u :: r2)).1 hok
      have hlen : (u :: r2).length ≤ n := by
        simp only [List.length_cons] at h ⊢
        omega
      rcases List.mem_cons.mp hp with hp1 | hp1
      · subst hp1
        exact hsplit.1
      · exact splitSentAux_spacedOk n (u :: r2) hlen []
          (by simpa using hsplit.2) p hp1
    · rw [if_neg hs] at hp
      refine splitSentAux_spacedOk n rest (by simpa using h) (acc ++ [c]) ?_ p hp
      rw [List.append_assoc]
      simpa using hok

/-- When the normalized text is nonempty, the regex sentence splitter of
`audiobook.py` is exactly the scan `splitSentAux` (strip and the empty-part
filter are the identity on its pieces), and every sentence has the
`spacedOk` shape. -/
theorem split_sentences_eq (text : List Char) (h : normalizeWs text ≠ []) :
    split_into_sentences_regex text = splitSentAux [] (normalizeWs text) ∧
      ∀ s ∈ split_into_sentences_regex text, spacedOk s = true := by
  have hok : spacedOk (normalizeWs text) = true := spacedOk_normalizeWs text h
  have hparts : ∀ p ∈ splitSentAux [] (normalizeWs text), spacedOk p = true :=
    splitSentAux_spacedOk (normalizeWs text).length _ le_rfl []
      (by simpa using hok)
  have hmap : (splitSentAux [] (normalizeWs text)).map stripWs =
      splitSentAux [] (normalizeWs text) := by
    have h1 : (splitSentAux [] (normalizeWs text)).map stripWs =
        (splitSentAux [] (normalizeWs text)).map id :=
      List.map_congr_left (fun p hp => stripWs_fix
        (spacedOk_headNonWs (hparts p hp)) (spacedOk_lastNonWs (hparts p hp)))
    rw [h1, List.map_id]
  have hfilter : (splitSentAux [] (normalizeWs text)).filter
      (fun p => !p.isEmpty) = splitSentAux [] (normalizeWs text) := by
    rw [List.filter_eq_self]
    intro p hp
    have := spacedOk_ne_nil (hparts p hp)
    simpa [List.isEmpty_iff] using this
  have hne := splitSentAux_ne (normalizeWs text).length _ le_rfl []
  have heq : split_into_sentences_regex text =
      splitSentAux [] (normalizeWs text) := by
    unfold split_into_sentences_regex
    dsimp only
    rw [hmap, hfilter]
    rw [if_neg (by simpa [List.isEmpty_iff] using hne)]
  exact ⟨heq, by
    rw [heq]
    exact hparts⟩

theorem pySplitAux_join_aux :
    ∀ (n : Nat) (s : List Char), s.length ≤ n → ∀ cur : List Char,
      (spacedOk s = true → joinSp (pySplitAux cur s) = cur.reverse ++ s) ∧
      (cur ≠ [] → spacedOkCont s = true →
        joinSp (pySplitAux cur s) = cur.reverse ++ s)
  | _, [], _, cur => by
    constructor
    · intro h
      simp [spacedOk] at h
    · intro hcur _
      rw [pySplitAux]
      rw [if_neg (by simpa [List.isEmpty_iff] using hcur)]
      simp [joinSp]
  | 0, c :: rest, h, cur => by simp at h
  | n + 1, c :: rest, h, cur => by
    have hrest : rest.length ≤ n := by simpa using h
    have hstep : ∀ cur2 : List Char, isWs c = false → spacedOkCont rest = true →
        joinSp (pySplitAux cur2 (c :: rest)) = cur2.reverse ++ c :: rest := by
      intro cur2 hw hcont
      rw [pySplitAux, if_neg (by simp [hw])]
      rw [(pySplitAux_join_aux n rest hrest (c :: cur2)).2 (by simp) hcont]
      simp
    constructor
    · intro hok
      simp only [spacedOk, Bool.and_eq_true, Bool.not_eq_true'] at hok
      exact hstep cur hok.1 hok.2
    · intro hcur hcont
      by_cases hw : isWs c = true
      · simp only [spacedOkCont, hw, if_true, Bool.and_eq_true, beq_iff_eq]
          at hcont
        obtain ⟨hsp, hok⟩ := hcont
        have hjr := (pySplitAux_join_aux n rest hrest []).1 hok
        simp only [List.reverse_nil, List.nil_append] at hjr
        have hne2 : pySplitAux [] rest ≠ [] := by
          intro h0
          rw [h0] at hjr
          exact (spacedOk_ne_nil hok) (by simpa [joinSp] using hjr.symm)
        rw [pySplitAux, if_pos hw,
          if_neg (by simpa [List.isEmpty_iff] using hcur)]
        rw [joinSp_cons_ne _ _ hne2, hjr, hsp]
      · refine hstep cur (by simpa using hw) ?_
        simpa [spacedOkCont, hw] using hcont

theorem joinSp_pySplit {s : List Char} (h : spacedOk s = true) :
    joinSp (pySplit s) = s := by
  have hj := (pySplitAux_join_aux s.length s le_rfl []).1 h
  simpa [pySplit] using hj

theorem pySplit_ne {s : List Char} (h : spacedOk s = true) : pySplit s ≠ [] := by
  intro h0
  have hj := joinSp_pySplit h
  rw [h0] at hj
  exact (spacedOk_ne_nil h) (by simpa [joinSp] using hj.symm)

theorem hardSplitKokoro_ne (maxChars : Nat) :
    ∀ (ws temp : List (List Char)) (n : Nat), temp ≠ [] →
      hardSplitKokoro maxChars ws temp n ≠ []
  | [], temp, n, h => by
    rw [hardSplitKokoro]
    rw [if_neg (by simpa [List.isEmpty_iff] using h)]
    simp
  | w :: ws, temp, n, h => by
    rw [hardSplitKokoro]
    split
    · simp
    · exact hardSplitKokoro_ne maxChars ws (temp ++ [w]) _ (by simp)

theorem hardSplitKokoro_join (maxChars : Nat) :
    ∀ (ws temp : List (List Char)) (n : Nat), temp ≠ [] →
      joinSp (hardSplitKokoro maxChars ws temp n) = joinSp (temp ++ ws)
  | [], temp, n, h => by
    rw [hardSplitKokoro]
    rw [if_neg (by simpa [List.isEmpty_iff] using h)]
    simp [joinSp]
  | w :: ws, temp, n, h => by
    rw [hardSplitKokoro]
    split
    · have hne := hardSplitKokoro_ne maxChars ws [w] w.length (by simp)
      rw [joinSp_cons_ne _ _ hne]
      rw [hardSplitKokoro_join maxChars ws [w] w.length (by simp)]
      rw [joinSp_append temp (w :: ws) h (by simp)]
      rfl
    · rw [hardSplitKokoro_join maxChars ws (temp ++ [w]) _ (by simp)]
      rw [List.append_assoc]
      rfl

theorem hardSplitKokoro_nil_ne (maxChars : Nat) (ws : List (List Char))
    (h : ws ≠ []) : hardSplitKokoro maxChars ws [] 0 ≠ [] := by
  cases ws with
  | nil => exact absurd rfl h
  | cons w ws2 =>
    rw [hardSplitKokoro]
    rw [if_neg (by simp)]
    exact hardSplitKokoro_ne maxChars ws2 [w] _ (by simp)

theorem hardSplitKokoro_nil_join (maxChars : Nat) (ws : List (List Char))
    (h : ws ≠ []) :
    joinSp (hardSplitKokoro maxChars ws [] 0) = joinSp ws := by
  cases ws with
  | nil => exact absurd rfl h
  | cons w ws2 =>
    rw [hardSplitKokoro]
    rw [if_neg (by simp)]
    rw [show ([] : List (List Char)) ++ [w] = [w] from rfl]
    rw [hardSplitKokoro_join maxChars ws2 [w] _ (by simp)]
    rfl

theorem chunkLoopKokoro_ne (maxChars : Nat) :
    ∀ (ss cur : List (List Char)) (n : Nat),
      (∀ s ∈ ss, spacedOk s = true) → (cur ≠ [] ∨ ss ≠ []) →
      chunkLoopKokoro maxChars ss cur n ≠ []
  | [], cur, n, _, hor => by
    rw [chunkLoopKokoro]
    rcases hor with h | h
    · rw [if_neg (by simpa [List.isEmpty_iff] using h)]
      simp
    · exact absurd rfl h
  | s :: ss, cur, n, hss, _ => by
    rw [chunkLoopKokoro]
    split
    · have hs := hss s (by simp)
      have hB := hardSplitKokoro_nil_ne maxChars (pySplit s) (pySplit_ne hs)
      intro h0
      rcases List.append_eq_nil.mp h0 with ⟨h1, _⟩
      rcases List.append_eq_nil.mp h1 with ⟨_, h2⟩
      exact hB h2
    · split
      · simp
      · exact chunkLoopKokoro_ne maxChars ss (cur ++ [s]) _
          (fun x hx => hss x (by simp [hx])) (Or.inl (by simp))

theorem chunkLoopKokoro_join (maxChars : Nat) :
    ∀ (ss cur : List (List Char)) (n : Nat),
      (∀ s ∈ ss, spacedOk s = true) →
      joinSp (chunkLoopKokoro maxChars ss cur n) = joinSp (cur ++ ss)
  | [], cur, n, _ => by
    rw [chunkLoopKokoro]
    by_cases hc : cur.isEmpty = true
    · rw [if_pos hc]
      have hce : cur = [] := by simpa [List.isEmpty_iff] using hc
      subst hce
      simp [joinSp]
    · rw [if_neg hc]
      simp [joinSp]
  | s :: ss, cur, n, hss => by
    have hs := hss s (by simp)
    have hss2 : ∀ x ∈ ss, spacedOk x = true := fun x hx => hss x (by simp [hx])
    rw [chunkLoopKokoro]
    split
    · have hBne := hardSplitKokoro_nil_ne maxChars (pySplit s) (pySplit_ne hs)
      have hBj : joinSp (hardSplitKokoro maxChars (pySplit s) [] 0) = s := by
        rw [hardSplitKokoro_nil_join maxChars (pySplit s) (pySplit_ne hs)]
        exact joinSp_pySplit hs
      by_cases hse : ss = []
      · subst hse
        have hC : chunkLoopKokoro maxChars [] [] 0 = [] := by
          rw [chunkLoopKokoro]
          simp
        rw [hC, List.append_nil]
        by_cases hcur : cur.isEmpty = true
        · rw [if_pos hcur]
          have hce : cur = [] := by simpa [List.isEmpty_iff] using hcur
          subst hce
          simpa [joinSp] using hBj
        · rw [if_neg hcur]
          have hcne : cur ≠ [] := by simpa [List.isEmpty_iff] using hcur
          have h1 : joinSp ([joinSp cur] ++
              hardSplitKokoro maxChars (pySplit s) [] 0) =
              joinSp [joinSp cur] ++ ' ' :: joinSp
                (hardSplitKokoro maxChars (pySplit s) [] 0) :=
            joinSp_append _ _ (by simp) hBne
          rw [h1, hBj, joinSp_append cur [s] hcne (by simp)]
          simp [joinSp]
      · have hCne : chunkLoopKokoro maxChars ss [] 0 ≠ [] :=
          chunkLoopKokoro_ne maxChars ss [] 0 hss2 (Or.inr hse)
        have hCj : joinSp (chunkLoopKokoro maxChars ss [] 0) = joinSp ss := by
          rw [chunkLoopKokoro_join maxChars ss [] 0 hss2]
          rfl
        by_cases hcur : cur.isEmpty = true
        · rw [if_pos hcur]
          have hce : cur = [] := by simpa [List.isEmpty_iff] using hcur
          subst hce
          rw [List.nil_append, List.nil_append]
          rw [joinSp_append _ _ hBne hCne, hBj, hCj]
          rw [joinSp_cons_ne s ss hse]
        · rw [if_neg hcur]
          have hcne : cur ≠ [] := by simpa [List.isEmpty_iff] using hcur
          have h1 : joinSp (([joinSp cur] ++
              hardSplitKokoro maxChars (pySplit s) [] 0) ++
                chunkLoopKokoro maxChars ss [] 0) =
              joinSp ([joinSp cur] ++
                hardSplitKokoro maxChars (pySplit s) [] 0) ++ ' ' ::
                joinSp (chunkLoopKokoro maxChars ss [] 0) :=
            joinSp_append _ _ (by simp) hCne
          rw [h1, joinSp_append [joinSp cur] _ (by simp) hBne, hBj, hCj]
          rw [joinSp_append cur (s :: ss) hcne (by simp)]
          rw [joinSp_cons_ne s ss hse]
          simp [joinSp, List.append_assoc]
    · split
      · rename_i hcond
        have hcne : cur ≠ [] := by
          rcases hcond with ⟨_, h2⟩
          simpa [List.isEmpty_iff] using h2
        have hrne : chunkLoopKokoro maxChars ss [s] s.length ≠ [] :=
          chunkLoopKokoro_ne maxChars ss [s] _ hss2 (Or.inl (by simp))
        rw [joinSp_cons_ne _ _ hrne]
        rw [chunkLoopKokoro_join maxChars ss [s] _ hss2]
        rw [joinSp_append cur (s :: ss) hcne (by simp)]
        rfl
      · rw [chunkLoopKokoro_join maxChars ss (cur ++ [s]) _ hss2]
        rw [List.append_assoc]
        rfl

theorem normalizeWs_nil : normalizeWs ([] : List Char) = [] := by
  rw [normalizeWs, collapseWs]
  rfl

theorem split_sentences_of_empty (text : List Char)
    (hn : normalizeWs text = []) : split_into_sentences_regex text = [[]] := by
  unfold split_into_sentences_regex
  dsimp only
  rw [hn]
  rw [splitSentAux]
  simp [stripWs, dropTrailingWs, List.splitOn]

/-- C2 (amended): for every text, the regex sentence splitter's space-joined
output is exactly the whitespace-normalized input, and the chunk builder's
space-joined output re-normalizes to the whitespace-normalized input; no
returned sentence is empty **provided the input contains a non-whitespace
character** (on whitespace-only input the splitter returns a single empty
sentence — see the counterexample). -/
theorem chunker_reconstructs_input (text : List Char) (maxChars : Nat)
    (_hmax : 0 < maxChars) :
    joinSp (split_into_sentences_regex text) = normalizeWs text ∧
      normalizeWs (joinSp (chunk_text_for_kokoro text maxChars)) =
        normalizeWs text ∧
      (normalizeWs text ≠ [] →
        ∀ s ∈ split_into_sentences_regex text, s ≠ []) := by
  by_cases hn : normalizeWs text = []
  · have hsent := split_sentences_of_empty text hn
    refine ⟨?_, ?_, ?_⟩
    · rw [hsent, hn]
      rfl
    · unfold chunk_text_for_kokoro
      rw [hsent]
      rw [chunkLoopKokoro]
      rw [if_neg (by simp)]
      rw [if_neg (by simp)]
      rw [chunkLoopKokoro]
      rw [if_neg (by simp)]
      rw [hn]
      show normalizeWs (joinSp [joinSp [[]]]) = []
      show normalizeWs [] = []
      exact normalizeWs_nil
    · intro h
      exact absurd hn h
  · obtain ⟨heq, hparts⟩ := split_sentences_eq text hn
    have hjoin : joinSp (split_into_sentences_regex text) = normalizeWs text := by
      rw [heq]
      have hj := splitSentAux_join (normalizeWs text).length _ le_rfl []
      simpa using hj
    refine ⟨hjoin, ?_, ?_⟩
    · unfold chunk_text_for_kokoro
      have hcj := chunkLoopKokoro_join maxChars (split_into_sentences_regex text)
        [] 0 hparts
      rw [List.nil_append] at hcj
      rw [hcj, hjoin]
      exact spacedOk_fix (spacedOk_normalizeWs text hn)
    · intro _ s hs
      exact spacedOk_ne_nil (hparts s hs)

/-- C2 counterexample: the claim "no returned sentence is empty" fails on
whitespace-only input — `split_into_sentences_regex " "` returns the single
empty sentence `""` (the regex and newline fallbacks both strip to nothing,
so the final fallback returns the normalized, i.e. empty, text itself). -/
theorem split_sentences_empty_sentence :
    [] ∈ split_into_sentences_regex [' '] := by
  rw [split_sentences_of_empty [' ']
    (by simp [normalizeWs, collapseWs, stripWs, dropTrailingWs, isWs,
      List.dropWhile])]
  simp

/-- Witness for the amended C2 at a concrete input. -/
theorem chunker_reconstructs_input_witness :
    joinSp (split_into_sentences_regex ("Hello. Big World.".data)) =
        normalizeWs ("Hello. Big World.".data) ∧
      normalizeWs (joinSp (chunk_text_for_kokoro ("Hello. Big World.".data) 8)) =
        normalizeWs ("Hello. Big World.".data) ∧
      (normalizeWs ("Hello. Big World.".data) ≠ [] →
        ∀ s ∈ split_into_sentences_regex ("Hello. Big World.".data), s ≠ []) :=
  chunker_reconstructs_input ("Hello. Big World.".data) 8 (by omega)

/-! ### Lemmas: chapter timeline (C9) -/

/-- Bookkeeping invariant of the chapter-tracking fold: the recorded pairs
chain (each end is the next start), the chapter index counts them, the
pending chapter start is 0 before any pair and the last pair's end
otherwise, the first pair starts at 0, and no more pairs than chapters. -/
def TsInv (chapCounts : List Nat) (st : ChapterState) : Prop :=
  List.Chain' (fun a b : ℚ × ℚ => a.2 = b.1) st.timestamps ∧
  st.chapterIdx = st.timestamps.length ∧
  (st.timestamps = [] → st.chapterStart = 0) ∧
  (∀ p, st.timestamps.getLast? = some p → p.2 = st.chapterStart) ∧
  (∀ p, st.timestamps.head? = some p → p.1 = 0) ∧
  st.timestamps.length ≤ chapCounts.length

theorem chain_concat {ts : List (ℚ × ℚ)} {q : ℚ × ℚ}
    (hc : List.Chain' (fun a b : ℚ × ℚ => a.2 = b.1) ts)
    (hl : ∀ p, ts.getLast? = some p → p.2 = q.1) :
    List.Chain' (fun a b : ℚ × ℚ => a.2 = b.1) (ts ++ [q]) := by
  rw [List.chain'_append]
  refine ⟨hc, List.chain'_singleton q, ?_⟩
  intro x hx y hy
  simp only [List.head?_cons, Option.mem_def, Option.some.injEq] at hy
  subst hy
  exact hl x hx

theorem head_concat {ts : List (ℚ × ℚ)} {q : ℚ × ℚ}
    (h0 : ts = [] → q.1 = 0)
    (hh : ∀ p, ts.head? = some p → p.1 = 0) :
    ∀ p, (ts ++ [q]).head? = some p → p.1 = 0 := by
  intro p hp
  cases ts with
  | nil =>
    simp only [List.nil_append, List.head?_cons, Option.some.injEq] at hp
    subst hp
    exact h0 rfl
  | cons a rest =>
    simp only [List.cons_append, List.head?_cons, Option.some.injEq] at hp
    subst hp
    exact hh _ rfl

theorem chapterStep_TsInv (chapCounts : List Nat) (sr : Nat)
    (st : ChapterState) (c : List Char × List Nat)
    (h : TsInv chapCounts st) :
    TsInv chapCounts (chapterStepFn chapCounts sr st c) := by
  obtain ⟨hc, hidx, h0, hlast, hhead, hlen⟩ := h
  unfold chapterStepFn
  dsimp only
  by_cases hg : ¬ chapCounts.isEmpty = true ∧ st.chapterIdx < chapCounts.length
  · rw [if_pos hg]
    by_cases ht : (chapCounts.take (st.chapterIdx + 1)).sum ≤
        st.charsProcessed + c.1.length
    · rw [if_pos ht]
      refine ⟨?_, ?_, ?_, ?_, ?_, ?_⟩
      · exact chain_concat hc (fun p hp => hlast p hp)
      · simp [hidx]
      · simp
      · intro p hp
        rw [List.getLast?_concat] at hp
        cases hp
        rfl
      · exact head_concat (fun he => h0 he) hhead
      · simp only [List.length_append, List.length_singleton]
        omega
    · rw [if_neg ht]
      exact ⟨hc, hidx, h0, hlast, hhead, hlen⟩
  · rw [if_neg hg]
    exact ⟨hc, hidx, h0, hlast, hhead, hlen⟩

theorem chapterFold_TsInv (chapCounts : List Nat) (sr : Nat) :
    ∀ (chunks : List (List Char × List Nat)) (st : ChapterState),
      TsInv chapCounts st →
      TsInv chapCounts (chunks.foldl (chapterStepFn chapCounts sr) st)
  | [], _, h => h
  | c :: rest, st, h =>
    chapterFold_TsInv chapCounts sr rest (chapterStepFn chapCounts sr st c)
      (chapterStep_TsInv chapCounts sr st c h)

theorem chapterFold_chars (chapCounts : List Nat) (sr : Nat) :
    ∀ (chunks : List (List Char × List Nat)) (st : ChapterState),
      (chunks.foldl (chapterStepFn chapCounts sr) st).charsProcessed =
        st.charsProcessed + (chunks.map fun p => p.1.length).sum
  | [], st => by simp
  | c :: rest, st => by
    have ih := chapterFold_chars chapCounts sr rest (chapterStepFn chapCounts sr st c)
    have hstep : (chapterStepFn chapCounts sr st c).charsProcessed =
        st.charsProcessed + c.1.length := by
      unfold chapterStepFn
      dsimp only
      split
      · split <;> rfl
      · rfl
    simp only [List.foldl_cons, ih, hstep, List.map_cons, List.sum_cons]
    omega

theorem chapterStep_push (chapCounts : List Nat) (sr : Nat)
    (st : ChapterState) (c : List Char × List Nat)
    (hg : ¬ chapCounts.isEmpty = true ∧ st.chapterIdx < chapCounts.length)
    (ht : (chapCounts.take (st.chapterIdx + 1)).sum ≤
      st.charsProcessed + c.1.length) :
    chapterStepFn chapCounts sr st c =
      { charsProcessed := st.charsProcessed + c.1.length,
        chapterIdx := st.chapterIdx + 1,
        chapterStart := if c.2.isEmpty then st.currentTime
          else st.currentTime + (c.2.sum : ℚ) / sr,
        currentTime := if c.2.isEmpty then st.currentTime
          else st.currentTime + (c.2.sum : ℚ) / sr,
        timestamps := st.timestamps ++ [(st.chapterStart,
          if c.2.isEmpty then st.currentTime
          else st.currentTime + (c.2.sum : ℚ) / sr)] } := by
  unfold chapterStepFn
  dsimp only
  rw [if_pos hg, if_pos ht]

theorem chapterStep_skip (chapCounts : List Nat) (sr : Nat)
    (st : ChapterState) (c : List Char × List Nat)
    (h : ¬(¬ chapCounts.isEmpty = true ∧ st.chapterIdx < chapCounts.length) ∨
      ¬ (chapCounts.take (st.chapterIdx + 1)).sum ≤
        st.charsProcessed + c.1.length) :
    chapterStepFn chapCounts sr st c =
      { st with
        charsProcessed := st.charsProcessed + c.1.length,
        currentTime := if c.2.isEmpty then st.currentTime
          else st.currentTime + (c.2.sum : ℚ) / sr } := by
  unfold chapterStepFn
  dsimp only
  by_cases hg : ¬ chapCounts.isEmpty = true ∧ st.chapterIdx < chapCounts.length
  · rcases h with h | h
    · exact absurd hg h
    · rw [if_pos hg, if_neg h]
  · rw [if_neg hg]

/-- If the chapter thresholds cover all chunk characters and every chunk
text is nonempty, then a fold that ends with every chapter recorded had to
record the last chapter at the very last chunk, so the last recorded end is
the final running audio time. -/
theorem chapterFold_last (chapCounts : List Nat) (sr : Nat) :
    ∀ (chunks : List (List Char × List Nat)) (st : ChapterState),
      (∀ p ∈ chunks, p.1 ≠ []) →
      st.charsProcessed + (chunks.map fun p => p.1.length).sum ≤
        chapCounts.sum →
      (st.chapterIdx < chapCounts.length ∨
        (chapCounts.sum ≤ st.charsProcessed ∧
          ∀ p, st.timestamps.getLast? = some p → p.2 = st.currentTime)) →
      (chunks.foldl (chapterStepFn chapCounts sr) st).chapterIdx =
        chapCounts.length →
      ∀ p, ((chunks.foldl (chapterStepFn chapCounts sr) st).timestamps.getLast?
          = some p) →
        p.2 = (chunks.foldl (chapterStepFn chapCounts sr) st).currentTime
  | [], st, _, _, hpre, hfull, p, hp => by
    simp only [List.foldl_nil] at hfull hp ⊢
    rcases hpre with h | h
    · omega
    · exact h.2 p hp
  | c :: rest, st, hpos, hcover, hpre, hfull, p, hp => by
    have hclen : 1 ≤ c.1.length := by
      have hne := hpos c (by simp)
      cases hq : c.1 with
      | nil => exact absurd hq hne
      | cons a t => simp [hq]
    have hcov2 : st.charsProcessed + c.1.length +
        (rest.map fun q => q.1.length).sum ≤ chapCounts.sum := by
      simp only [List.map_cons, List.sum_cons] at hcover
      omega
    have hlt : st.chapterIdx < chapCounts.length := by
      rcases hpre with h | h
      · exact h
      · omega
    have hg : ¬ chapCounts.isEmpty = true ∧
        st.chapterIdx < chapCounts.length := by
      refine ⟨?_, hlt⟩
      intro hie
      have hnil : chapCounts = [] := by simpa [List.isEmpty_iff] using hie
      rw [hnil] at hlt
      simp at hlt
    have hpos2 : ∀ q ∈ rest, q.1 ≠ [] := fun q hq => hpos q (by simp [hq])
    simp only [List.foldl_cons] at hfull hp ⊢
    by_cases ht : (chapCounts.take (st.chapterIdx + 1)).sum ≤
        st.charsProcessed + c.1.length
    · rw [chapterStep_push chapCounts sr st c hg ht] at hfull hp ⊢
      by_cases hfin : st.chapterIdx + 1 = chapCounts.length
      · refine chapterFold_last chapCounts sr rest _ hpos2 ?_ ?_ hfull p hp
        · dsimp only
          omega
        · right
          constructor
          · dsimp only
            have htake : chapCounts.take (st.chapterIdx + 1) = chapCounts := by
              rw [hfin]
              exact List.take_length ..
            rw [htake] at ht
            omega
          · intro q hq
            dsimp only at hq ⊢
            rw [List.getLast?_concat] at hq
            cases hq
            rfl
      · refine chapterFold_last chapCounts sr rest _ hpos2 ?_ ?_ hfull p hp
        · dsimp only
          omega
        · left
          dsimp only
          omega
    · rw [chapterStep_skip chapCounts sr st c (Or.inr ht)] at hfull hp ⊢
      refine chapterFold_last chapCounts sr rest _ hpos2 ?_ ?_ hfull p hp
      · dsimp only
        omega
      · left
        dsimp only
        omega

/-- C9 (amended): for a completed run with a non-empty chapter list, the
timeline builder records at least one and at most one pair per chapter (at
most one pair per chunk, so fewer pairs than chapters when several
cumulative thresholds fall inside one chunk), the first pair starts at 0,
consecutive pairs share their boundary time, and — whenever every chunk
text is nonempty and the chapters' total character count covers the
chunks' total — the final pair's end is the total audio duration. -/
theorem chapterTimeline_spec (chapCounts : List Nat) (sr : Nat)
    (chunks : List (List Char × List Nat)) (hcc : chapCounts ≠ []) :
    (chapterTimeline chapCounts sr chunks).1 ≠ [] ∧
      (∀ p, (chapterTimeline chapCounts sr chunks).1.head? = some p →
        p.1 = 0) ∧
      List.Chain' (fun a b : ℚ × ℚ => a.2 = b.1)
        (chapterTimeline chapCounts sr chunks).1 ∧
      (chapterTimeline chapCounts sr chunks).1.length ≤ chapCounts.length ∧
      ((∀ p ∈ chunks, p.1 ≠ []) →
        (chunks.map fun p => p.1.length).sum ≤ chapCounts.sum →
        ∀ p, (chapterTimeline chapCounts sr chunks).1.getLast? = some p →
          p.2 = (chapterTimeline chapCounts sr chunks).2) := by
  have hccl : 0 < chapCounts.length := by
    cases chapCounts with
    | nil => exact absurd rfl hcc
    | cons a t => simp
  have hinv0 : TsInv chapCounts ⟨0, 0, 0, 0, []⟩ := by
    refine ⟨List.chain'_nil, rfl, fun _ => rfl, ?_, ?_, by simp⟩
    · intro p hp
      simp at hp
    · intro p hp
      simp at hp
  have hinv := chapterFold_TsInv chapCounts sr chunks _ hinv0
  obtain ⟨hchain, hidx, h0, hlast, hhead, hlen⟩ := hinv
  unfold chapterTimeline
  dsimp only
  by_cases hfix : ¬ chapCounts.isEmpty = true ∧
      (chunks.foldl (chapterStepFn chapCounts sr) ⟨0, 0, 0, 0, []⟩).timestamps.length <
        chapCounts.length
  · rw [if_pos hfix]
    refine ⟨by simp, head_concat (fun he => h0 he) hhead,
      chain_concat hchain hlast, ?_, ?_⟩
    · simp only [List.length_append, List.length_singleton]
      omega
    · intro _ _ p hp
      rw [List.getLast?_concat] at hp
      cases hp
      rfl
  · rw [if_neg hfix]
    have hlenge : chapCounts.length ≤
        (chunks.foldl (chapterStepFn chapCounts sr) ⟨0, 0, 0, 0, []⟩).timestamps.length := by
      rcases not_and_or.mp hfix with h | h
      · exfalso
        apply h
        intro hie
        exact hcc (by simpa [List.isEmpty_iff] using hie)
      · omega
    have hleneq : (chunks.foldl (chapterStepFn chapCounts sr)
        ⟨0, 0, 0, 0, []⟩).timestamps.length = chapCounts.length := by omega
    refine ⟨?_, hhead, hchain, by omega, ?_⟩
    · intro he
      rw [he] at hleneq
      simp at hleneq
      omega
    · intro hpos hcover p hp
      refine chapterFold_last chapCounts sr chunks _ hpos (by simpa using hcover)
        (Or.inl (by simpa using hccl)) ?_ p hp
      omega

/-- C9 counterexample: three one-character chapters all covered by a single
three-character chunk of one second of audio yield only **two** pairs —
at most one boundary is recorded per chunk and the post-loop fixup adds a
single final pair — not one pair per chapter. -/
theorem chapterTimeline_counterexample :
    (chapterTimeline [1, 1, 1] 10 [(['a', 'b', 'c'], [10])]).1.length = 2 := by
  decide

/-- Witness for the amended C9: two one-character chapters synthesized as
two one-second chunks give one pair per chapter chaining 0 → 1 → 2. -/
theorem chapterTimeline_spec_witness :
    (chapterTimeline [1, 1] 10 [(['a'], [10]), (['b'], [10])]).1 ≠ [] ∧
      (∀ p, (chapterTimeline [1, 1] 10
          [(['a'], [10]), (['b'], [10])]).1.head? = some p → p.1 = 0) ∧
      List.Chain' (fun a b : ℚ × ℚ => a.2 = b.1)
        (chapterTimeline [1, 1] 10 [(['a'], [10]), (['b'], [10])]).1 ∧
      (chapterTimeline [1, 1] 10
        [(['a'], [10]), (['b'], [10])]).1.length ≤ ([1, 1] : List Nat).length ∧
      ((∀ p ∈ [((['a'] : List Char), ([10] : List Nat)), (['b'], [10])],
          p.1 ≠ []) →
        (([((['a'] : List Char), ([10] : List Nat)), (['b'], [10])].map
          fun p => p.1.length).sum ≤ ([1, 1] : List Nat).sum) →
        ∀ p, (chapterTimeline [1, 1] 10
            [(['a'], [10]), (['b'], [10])]).1.getLast? = some p →
          p.2 = (chapterTimeline [1, 1] 10 [(['a'], [10]), (['b'], [10])]).2) :=
  chapterTimeline_spec [1, 1] 10 [(['a'], [10]), (['b'], [10])] (by simp)

/-! ### Lemmas: subtitle timeline (C8) -/

/-- Invariants of the long-chunk word loop: the flushed entries chain, the
first starts at `subStart`, the last ends at the returned remainder start,
the flushed word count `k` plus the leftover accounts for all words, the
returned start has advanced by `k / wps`, and every entry lies between
`subStart` and the returned start. -/
theorem subLoop_spec (wps : ℚ) (hw : 0 < wps) :
    ∀ (words cur : List (List Char)) (curLen : Nat) (subStart : ℚ) (idx : Nat),
      List.Chain' (fun a b : SubtitleEntry => a.end_time = b.start_time)
        (subLoop wps words cur curLen subStart idx).1 ∧
      (∀ p, (subLoop wps words cur curLen subStart idx).1.head? = some p →
        p.start_time = subStart) ∧
      (∀ p, (subLoop wps words cur curLen subStart idx).1.getLast? = some p →
        p.end_time = (subLoop wps words cur curLen subStart idx).2.2.1) ∧
      ((subLoop wps words cur curLen subStart idx).1 = [] →
        (subLoop wps words cur curLen subStart idx).2.2.1 = subStart) ∧
      (∃ k : Nat, k + (subLoop wps words cur curLen subStart idx).2.1.length =
          cur.length + words.length ∧
        (subLoop wps words cur curLen subStart idx).2.2.1 =
          subStart + (k : ℚ) / wps) ∧
      (∀ e ∈ (subLoop wps words cur curLen subStart idx).1,
        subStart ≤ e.start_time ∧ e.start_time ≤ e.end_time ∧
        e.end_time ≤ (subLoop wps words cur curLen subStart idx).2.2.1)
  | [], cur, curLen, subStart, idx => by
    rw [subLoop]
    refine ⟨List.chain'_nil, ?_, ?_, fun _ => rfl, ⟨0, by simp, by simp⟩, ?_⟩
    · intro p hp
      simp at hp
    · intro p hp
      simp at hp
    · intro e he
      simp at he
  | w :: ws, cur, curLen, subStart, idx => by
    rw [subLoop]
    dsimp only
    by_cases hflush : maxSubtitleLen ≤ curLen + w.length + 1
    · rw [if_pos hflush]
      have ih := subLoop_spec wps hw ws [] 0
        (subStart + ((cur ++ [w]).length : ℚ) / wps) (idx + 1)
      obtain ⟨ihc, ihh, ihl, ihe, ⟨k, hk1, hk2⟩, ihb⟩ := ih
      have hdnn : 0 ≤ ((cur ++ [w]).length : ℚ) / wps := by
        apply div_nonneg _ (le_of_lt hw)
        positivity
      have hknn : (0 : ℚ) ≤ (k : ℚ) / wps := by
        apply div_nonneg _ (le_of_lt hw)
        positivity
      refine ⟨?_, ?_, ?_, ?_, ?_, ?_⟩
      · rw [List.chain'_cons']
        refine ⟨?_, ihc⟩
        intro y hy
        rw [Option.mem_def] at hy
        exact (ihh y hy).symm
      · intro p hp
        simp only [List.head?_cons, Option.some.injEq] at hp
        subst hp
        rfl
      · intro p hp
        cases hE : (subLoop wps ws [] 0
            (subStart + ((cur ++ [w]).length : ℚ) / wps) (idx + 1)).1 with
        | nil =>
          rw [hE] at hp
          simp only [List.getLast?_singleton, Option.some.injEq] at hp
          subst hp
          dsimp only
          rw [ihe hE]
        | cons f fs =>
          rw [hE] at hp
          rw [List.getLast?_cons_cons] at hp
          rw [← hE] at hp
          exact ihl p hp
      · intro h
        simp at h
      · refine ⟨k + (cur ++ [w]).length, ?_, ?_⟩
        · simp at hk1 ⊢
          omega
        · rw [hk2]
          push_cast
          rw [add_div]
          ring
      · intro e he
        rcases List.mem_cons.mp he with he1 | he1
        · subst he1
          dsimp only
          refine ⟨le_refl _, by linarith, ?_⟩
          rw [hk2]
          linarith
        · obtain ⟨hb1, hb2, hb3⟩ := ihb e he1
          exact ⟨by linarith, hb2, hb3⟩
    · rw [if_neg hflush]
      have ih := subLoop_spec wps hw ws (cur ++ [w]) (curLen + w.length + 1)
        subStart idx
      obtain ⟨ihc, ihh, ihl, ihe, ⟨k, hk1, hk2⟩, ihb⟩ := ih
      refine ⟨ihc, ihh, ihl, ihe, ⟨k, ?_, hk2⟩, ihb⟩
      simp at hk1 ⊢
      omega

theorem chain'_concat_of_last {α : Type} {R : α → α → Prop} {l : List α}
    {a : α} (hc : List.Chain' R l) (hl : ∀ p, l.getLast? = some p → R p a) :
    List.Chain' R (l ++ [a]) := by
  rw [List.chain'_append]
  refine ⟨hc, List.chain'_singleton a, ?_⟩
  intro x hx y hy
  simp only [List.head?_cons, Option.mem_def, Option.some.injEq] at hy
  subst hy
  exact hl x hx

theorem pySplitAux_ne_of_cur : ∀ (rest cur : List Char), cur ≠ [] →
    pySplitAux cur rest ≠ []
  | [], cur, h => by
    rw [pySplitAux]
    rw [if_neg (by simpa [List.isEmpty_iff] using h)]
    simp
  | c :: rest, cur, h => by
    rw [pySplitAux]
    by_cases hw : isWs c = true
    · rw [if_pos hw, if_neg (by simpa [List.isEmpty_iff] using h)]
      simp
    · rw [if_neg hw]
      exact pySplitAux_ne_of_cur rest (c :: cur) (by simp)

theorem pySplit_ne_of_head (s : List Char) (h0 : s ≠ []) (hh : headNonWs s) :
    pySplit s ≠ [] := by
  cases s with
  | nil => exact absurd rfl h0
  | cons c rest =>
    have hc : isWs c = false := hh
    unfold pySplit
    rw [pySplitAux, if_neg (by simp [hc])]
    exact pySplitAux_ne_of_cur rest [c] (by simp)

/-- Per-chunk subtitle entries: nonempty, the first starts at the chunk's
start, the last ends at the chunk's end, they chain, and every entry lies
within the chunk's time span. -/
theorem buildChunkSubs_spec (chunkText : List Char) (chunkStart chunkDur : ℚ)
    (idx : Nat) (hd : 0 < chunkDur) :
    (buildChunkSubs chunkText chunkStart (chunkStart + chunkDur) chunkDur
        idx).1 ≠ [] ∧
      (∀ p, (buildChunkSubs chunkText chunkStart (chunkStart + chunkDur)
          chunkDur idx).1.head? = some p → p.start_time = chunkStart) ∧
      (∀ p, (buildChunkSubs chunkText chunkStart (chunkStart + chunkDur)
          chunkDur idx).1.getLast? = some p →
        p.end_time = chunkStart + chunkDur) ∧
      List.Chain' (fun a b : SubtitleEntry => a.end_time = b.start_time)
        (buildChunkSubs chunkText chunkStart (chunkStart + chunkDur)
          chunkDur idx).1 ∧
      (∀ e ∈ (buildChunkSubs chunkText chunkStart (chunkStart + chunkDur)
          chunkDur idx).1,
        chunkStart ≤ e.start_time ∧ e.start_time ≤ e.end_time ∧
          e.end_time ≤ chunkStart + chunkDur) := by
  unfold buildChunkSubs
  dsimp only
  by_cases hlong : maxSubtitleLen < (stripWs chunkText).length
  · rw [if_pos hlong]
    have hsne : stripWs chunkText ≠ [] := by
      intro hq
      rw [hq] at hlong
      simp [maxSubtitleLen] at hlong
    have hwords : pySplit (stripWs chunkText) ≠ [] :=
      pySplit_ne_of_head _ hsne
        (headNonWs_dropTrailing _ (headNonWs_dropWhile _))
    have hW : 0 < ((pySplit (stripWs chunkText)).length : ℚ) := by
      cases hq : pySplit (stripWs chunkText) with
      | nil => exact absurd hq hwords
      | cons a t =>
        simp [hq]
        positivity
    rw [if_pos hd]
    set W : ℚ := ((pySplit (stripWs chunkText)).length : ℚ) with hWdef
    set wps : ℚ := W / chunkDur with hwps
    have hw : 0 < wps := div_pos hW hd
    obtain ⟨ihc, ihh, ihl, ihe, ⟨k, hk1, hk2⟩, ihb⟩ :=
      subLoop_spec wps hw (pySplit (stripWs chunkText)) [] 0 chunkStart idx
    simp only [List.length_nil, Nat.zero_add] at hk1
    have hkW : (k : ℚ) ≤ W := by
      rw [hWdef]
      have : k ≤ (pySplit (stripWs chunkText)).length := by omega
      exact_mod_cast this
    have hdiv_le : (k : ℚ) / wps ≤ chunkDur := by
      rw [hwps, div_div_eq_mul_div, div_le_iff₀ hW]
      calc (k : ℚ) * chunkDur ≤ W * chunkDur :=
            mul_le_mul_of_nonneg_right hkW (le_of_lt hd)
        _ = chunkDur * W := by ring
    have hdiv_nn : (0 : ℚ) ≤ (k : ℚ) / wps :=
      div_nonneg (by positivity) (le_of_lt hw)
    have hsub_le : (subLoop wps (pySplit (stripWs chunkText)) [] 0 chunkStart
        idx).2.2.1 ≤ chunkStart + chunkDur := by
      rw [hk2]
      linarith
    have hsub_ge : chunkStart ≤ (subLoop wps (pySplit (stripWs chunkText))
        [] 0 chunkStart idx).2.2.1 := by
      rw [hk2]
      linarith
    by_cases hleft : (subLoop wps (pySplit (stripWs chunkText)) [] 0
        chunkStart idx).2.1.isEmpty = true
    · rw [if_pos hleft]
      have hlef : (subLoop wps (pySplit (stripWs chunkText)) [] 0 chunkStart
          idx).2.1 = [] := by simpa [List.isEmpty_iff] using hleft
      have hkeq : (k : ℚ) = W := by
        rw [hlef] at hk1
        simp at hk1
        rw [hWdef]
        exact_mod_cast hk1
      have hfull : (subLoop wps (pySplit (stripWs chunkText)) [] 0 chunkStart
          idx).2.2.1 = chunkStart + chunkDur := by
        rw [hk2, hkeq, hwps]
        rw [div_div_eq_mul_div]
        rw [mul_comm, mul_div_assoc, div_self (ne_of_gt hW)]
        ring
      have hne : (subLoop wps (pySplit (stripWs chunkText)) [] 0 chunkStart
          idx).1 ≠ [] := by
        intro hq
        have := ihe hq
        rw [hfull] at this
        have : chunkDur = 0 := by linarith
        exact absurd this (ne_of_gt hd)
      refine ⟨hne, ihh, ?_, ihc, ?_⟩
      · intro p hp
        rw [ihl p hp, hfull]
      · intro e he
        obtain ⟨h1, h2, h3⟩ := ihb e he
        exact ⟨h1, h2, by rw [hfull] at h3; exact h3⟩
    · rw [if_neg hleft]
      refine ⟨by simp, ?_, ?_, ?_, ?_⟩
      · intro p hp
        cases hE : (subLoop wps (pySplit (stripWs chunkText)) [] 0 chunkStart
            idx).1 with
        | nil =>
          rw [hE] at hp
          simp only [List.nil_append, List.head?_cons,
            Option.some.injEq] at hp
          subst hp
          dsimp only
          rw [ihe hE]
        | cons f fs =>
          rw [hE] at hp
          simp only [List.cons_append, List.head?_cons,
            Option.some.injEq] at hp
          subst hp
          exact ihh _ (by rw [hE]; rfl)
      · intro p hp
        rw [List.getLast?_concat] at hp
        cases hp
        rfl
      · refine chain'_concat_of_last ihc ?_
        intro p hp
        dsimp only
        exact ihl p hp
      · intro e he
        rcases List.mem_append.mp he with he1 | he1
        · obtain ⟨h1, h2, h3⟩ := ihb e he1
          exact ⟨h1, h2, le_trans h3 hsub_le⟩
        · simp only [List.mem_singleton] at he1
          subst he1
          exact ⟨hsub_ge, hsub_le, le_refl _⟩
  · rw [if_neg hlong]
    refine ⟨by simp, ?_, ?_, ?_, ?_⟩
    · intro p hp
      simp only [List.head?_cons, Option.some.injEq] at hp
      subst hp
      rfl
    · intro p hp
      simp only [List.getLast?_singleton, Option.some.injEq] at hp
      subst hp
      rfl
    · exact List.chain'_singleton _
    · intro e he
      simp only [List.mem_singleton] at he
      subst he
      refine ⟨le_refl _, ?_, le_refl _⟩
      show chunkStart ≤ chunkStart + chunkDur
      linarith

theorem totalDur_cons (sr : Nat) (c : List Char × List Nat)
    (rest : List (List Char × List Nat)) :
    totalDur sr (c :: rest) =
      (if c.2.isEmpty then 0 else ((c.2.sum : ℚ) / sr)) + totalDur sr rest := by
  unfold totalDur
  simp

theorem totalDur_nonneg (sr : Nat) (chunks : List (List Char × List Nat)) :
    0 ≤ totalDur sr chunks := by
  unfold totalDur
  apply List.sum_nonneg
  intro x hx
  simp only [List.mem_map] at hx
  obtain ⟨p, _, hp⟩ := hx
  subst hp
  split
  · exact le_refl 0
  · positivity

/-- Fold form of the subtitle accumulation: entries chain exactly, every
entry lies in `[t, t + total duration]`, and the first entry (if any)
starts exactly at `t`. -/
theorem buildAllSubs_spec (sr : Nat) :
    ∀ (chunks : List (List Char × List Nat)) (t : ℚ) (idx : Nat),
      (∀ p ∈ chunks, ¬ p.2.isEmpty = true → 0 < (p.2.sum : ℚ) / sr) →
      List.Chain' (fun a b : SubtitleEntry => a.end_time = b.start_time)
        (buildAllSubs sr chunks t idx) ∧
      (∀ e ∈ buildAllSubs sr chunks t idx,
        t ≤ e.start_time ∧ e.start_time ≤ e.end_time ∧
          e.end_time ≤ t + totalDur sr chunks) ∧
      (∀ p, (buildAllSubs sr chunks t idx).head? = some p →
        p.start_time = t)
  | [], t, idx, _ => by
    rw [buildAllSubs]
    refine ⟨List.chain'_nil, ?_, ?_⟩
    · intro e he
      simp at he
    · intro p hp
      simp at hp
  | c :: rest, t, idx, hpos => by
    rw [buildAllSubs]
    dsimp only
    have hpos2 : ∀ p ∈ rest, ¬ p.2.isEmpty = true → 0 < (p.2.sum : ℚ) / sr :=
      fun p hp => hpos p (by simp [hp])
    by_cases hemp : c.2.isEmpty = true
    · rw [if_pos hemp]
      have ih := buildAllSubs_spec sr rest t idx hpos2
      rw [totalDur_cons, if_pos hemp, zero_add]
      exact ih
    · rw [if_neg hemp]
      have hdur : 0 < (c.2.sum : ℚ) / sr := hpos c (by simp) (by simp [hemp])
      obtain ⟨pc1, pc2, pc3, pc4, pc5⟩ :=
        buildChunkSubs_spec c.1 t ((c.2.sum : ℚ) / sr) idx hdur
      obtain ⟨ih1, ih2, ih3⟩ := buildAllSubs_spec sr rest
        (t + (c.2.sum : ℚ) / sr)
        (buildChunkSubs c.1 t (t + (c.2.sum : ℚ) / sr) ((c.2.sum : ℚ) / sr)
          idx).2 hpos2
      have htd : totalDur sr (c :: rest) =
          (c.2.sum : ℚ) / sr + totalDur sr rest := by
        rw [totalDur_cons, if_neg hemp]
      have htdr : 0 ≤ totalDur sr rest := totalDur_nonneg sr rest
      refine ⟨?_, ?_, ?_⟩
      · rw [List.chain'_append]
        refine ⟨pc4, ih1, ?_⟩
        intro x hx y hy
        rw [Option.mem_def] at hx hy
        rw [pc3 x hx]
        exact (ih3 y hy).symm
      · intro e he
        rcases List.mem_append.mp he with he1 | he1
        · obtain ⟨h1, h2, h3⟩ := pc5 e he1
          refine ⟨h1, h2, ?_⟩
          rw [htd]
          linarith
        · obtain ⟨h1, h2, h3⟩ := ih2 e he1
          refine ⟨by linarith, h2, ?_⟩
          rw [htd]
          linarith
      · intro p hp
        cases hE : (buildChunkSubs c.1 t (t + (c.2.sum : ℚ) / sr)
            ((c.2.sum : ℚ) / sr) idx).1 with
        | nil => exact absurd hE pc1
        | cons f fs =>
          rw [hE] at hp
          simp only [List.cons_append, List.head?_cons,
            Option.some.injEq] at hp
          subst hp
          exact pc2 _ (by rw [hE]; rfl)

theorem chain_head_le_last :
    ∀ (es : List SubtitleEntry),
      List.Chain' (fun a b : SubtitleEntry => a.end_time = b.start_time) es →
      (∀ e ∈ es, e.start_time ≤ e.end_time) →
      ∀ p q, es.head? = some p → es.getLast? = some q →
        p.start_time ≤ q.end_time
  | [], _, _, p, q, hp, _ => by simp at hp
  | [e], _, hb, p, q, hp, hq => by
    simp only [List.head?_cons, Option.some.injEq] at hp
    simp only [List.getLast?_singleton, Option.some.injEq] at hq
    subst hp
    subst hq
    exact hb _ (by simp)
  | e :: f :: rest, hc, hb, p, q, hp, hq => by
    simp only [List.head?_cons, Option.some.injEq] at hp
    subst hp
    rw [List.getLast?_cons_cons] at hq
    have hef : e.end_time = f.start_time := (List.chain'_cons.mp hc).1
    have h1 := chain_head_le_last (f :: rest) (List.chain'_cons.mp hc).2
      (fun x hx => hb x (by simp [hx])) f q rfl hq
    have h2 : e.start_time ≤ e.end_time := hb e (by simp)
    calc e.start_time ≤ e.end_time := h2
      _ = f.start_time := hef
      _ ≤ q.end_time := h1

theorem chain_span_le :
    ∀ (es : List SubtitleEntry) (t T : ℚ),
      List.Chain' (fun a b : SubtitleEntry => a.end_time = b.start_time) es →
      (∀ e ∈ es, e.start_time ≤ e.end_time) →
      (∀ p, es.head? = some p → t ≤ p.start_time) →
      (∀ p, es.getLast? = some p → p.end_time ≤ T) →
      t ≤ T →
      (es.map fun e => e.end_time - e.start_time).sum ≤ T - t
  | [], t, T, _, _, _, _, htT => by
    simp only [List.map_nil, List.sum_nil]
    linarith
  | e :: rest, t, T, hc, hb, hh, hl, _ => by
    have hte : t ≤ e.start_time := hh e rfl
    cases rest with
    | nil =>
      have heT : e.end_time ≤ T := hl e (by simp)
      simp only [List.map_cons, List.map_nil, List.sum_cons, List.sum_nil]
      linarith
    | cons f rest2 =>
      have hef : e.end_time = f.start_time := (List.chain'_cons.mp hc).1
      have hctail := (List.chain'_cons.mp hc).2
      have hbtail : ∀ x ∈ f :: rest2, x.start_time ≤ x.end_time :=
        fun x hx => hb x (by simp [hx])
      have hltail : ∀ p, (f :: rest2).getLast? = some p → p.end_time ≤ T := by
        intro p hp
        refine hl p ?_
        rw [List.getLast?_cons_cons]
        exact hp
      have hqlast : (f :: rest2).getLast? =
          some ((f :: rest2).getLast (by simp)) :=
        List.getLast?_eq_getLast _ (by simp)
      have heT : e.end_time ≤ T := by
        have hle := chain_head_le_last (f :: rest2) hctail hbtail f
          ((f :: rest2).getLast (by simp)) rfl hqlast
        have hqT := hltail _ hqlast
        calc e.end_time = f.start_time := hef
          _ ≤ ((f :: rest2).getLast (by simp)).end_time := hle
          _ ≤ T := hqT
      have ih := chain_span_le (f :: rest2) e.end_time T hctail hbtail
        (by
          intro p hp
          simp only [List.head?_cons, Option.some.injEq] at hp
          subst hp
          exact le_of_eq hef)
        hltail heT
      simp only [List.map_cons, List.sum_cons] at ih ⊢
      have hbe : e.start_time ≤ e.end_time := hb e (by simp)
      linarith

/-- C8: the subtitle entries accumulated over a job's chunks are ordered
and non-overlapping (each entry ends where the next begins), every entry's
start precedes its end, all entries lie within `[0, total audio duration]`,
and the summed span of all entries is at most the total audio duration.
Hypothesis: each chunk whose generator yielded anything yields audio of
positive duration. -/
theorem subtitles_spec (sr : Nat) (chunks : List (List Char × List Nat))
    (hpos : ∀ p ∈ chunks, ¬ p.2.isEmpty = true → 0 < (p.2.sum : ℚ) / sr) :
    List.Chain' (fun a b : SubtitleEntry => a.end_time = b.start_time)
        (buildAllSubs sr chunks 0 1) ∧
      (∀ e ∈ buildAllSubs sr chunks 0 1,
        0 ≤ e.start_time ∧ e.start_time ≤ e.end_time ∧
          e.end_time ≤ totalDur sr chunks) ∧
      ((buildAllSubs sr chunks 0 1).map
        fun e => e.end_time - e.start_time).sum ≤ totalDur sr chunks := by
  obtain ⟨h1, h2, h3⟩ := buildAllSubs_spec sr chunks 0 1 hpos
  have h2s : ∀ e ∈ buildAllSubs sr chunks 0 1,
      0 ≤ e.start_time ∧ e.start_time ≤ e.end_time ∧
        e.end_time ≤ totalDur sr chunks := by
    intro e he
    obtain ⟨g1, g2, g3⟩ := h2 e he
    exact ⟨g1, g2, by linarith⟩
  refine ⟨h1, h2s, ?_⟩
  have hspan := chain_span_le (buildAllSubs sr chunks 0 1) 0
    (totalDur sr chunks) h1 (fun e he => (h2s e he).2.1)
    (fun p hp => le_of_eq (h3 p hp).symm)
    (by
      intro p hp
      have hmem : p ∈ buildAllSubs sr chunks 0 1 := by
        obtain ⟨hne2, hpe⟩ :=
          List.mem_getLast?_eq_getLast (Option.mem_def.mpr hp)
        rw [hpe]
        exact List.getLast_mem hne2
      exact ((h2s p hmem).2.2))
    (totalDur_nonneg sr chunks)
  linarith

/-- Witness for C8: one chunk of one second holding a short text gives a
single entry spanning exactly `[0, 1]`. -/
theorem subtitles_spec_witness :
    List.Chain' (fun a b : SubtitleEntry => a.end_time = b.start_time)
        (buildAllSubs 10 [(['h', 'i'], [10])] 0 1) ∧
      (∀ e ∈ buildAllSubs 10 [(['h', 'i'], [10])] 0 1,
        0 ≤ e.start_time ∧ e.start_time ≤ e.end_time ∧
          e.end_time ≤ totalDur 10 [(['h', 'i'], [10])]) ∧
      ((buildAllSubs 10 [(['h', 'i'], [10])] 0 1).map
        fun e => e.end_time - e.start_time).sum ≤
        totalDur 10 [(['h', 'i'], [10])] :=
  subtitles_spec 10 [(['h', 'i'], [10])] (by
    intro p hp _
    rw [List.mem_singleton] at hp
    subst hp
    norm_num)

/-! ### Lemmas: the job worker (C4–C7, C10) -/

/-- The progress-relevant ordering between successive job snapshots: totals
are fixed, cumulative counters only grow. -/
def Mono (a b : WJob) : Prop :=
  a.total_chars = b.total_chars ∧ a.total_chunks = b.total_chunks ∧
    a.processed_chars ≤ b.processed_chars ∧ a.current_chunk ≤ b.current_chunk

theorem mono_refl (a : WJob) : Mono a a :=
  ⟨rfl, rfl, le_refl _, le_refl _⟩

theorem round_mono_q {x y : ℚ} (h : x ≤ y) : round x ≤ round y := by
  rw [round_eq, round_eq]
  exact Int.floor_le_floor (by linarith)

/-- `percent` is monotone along the progress ordering. -/
theorem percent_mono {a b : WJob} (h : Mono a b) : percentQ a ≤ percentQ b := by
  obtain ⟨h1, h2, h3, h4⟩ := h
  unfold percentQ
  rw [← h1, ← h2]
  by_cases ht : 0 < a.total_chars
  · rw [if_pos ht, if_pos ht]
    have htq : (0 : ℚ) < (a.total_chars : ℚ) := by exact_mod_cast ht
    have hdiv : (a.processed_chars : ℚ) / a.total_chars ≤
        (b.processed_chars : ℚ) / a.total_chars :=
      (div_le_div_iff_of_pos_right htq).mpr (by exact_mod_cast h3)
    have := round_mono_q (by linarith :
      (a.processed_chars : ℚ) / a.total_chars * 100 * 10 ≤
        (b.processed_chars : ℚ) / a.total_chars * 100 * 10)
    have hq : ((round ((a.processed_chars : ℚ) / a.total_chars * 100 * 10) : ℤ) : ℚ) ≤
        ((round ((b.processed_chars : ℚ) / a.total_chars * 100 * 10) : ℤ) : ℚ) := by
      exact_mod_cast this
    linarith
  · rw [if_neg ht, if_neg ht]
    by_cases hk : a.total_chunks = 0
    · rw [if_pos hk, if_pos hk]
    · rw [if_neg hk, if_neg hk]
      have hkq : (0 : ℚ) < (a.total_chunks : ℚ) := by
        have : 0 < a.total_chunks := Nat.pos_of_ne_zero hk
        exact_mod_cast this
      have hdiv : (a.current_chunk : ℚ) / a.total_chunks ≤
          (b.current_chunk : ℚ) / a.total_chunks :=
        (div_le_div_iff_of_pos_right hkq).mpr (by exact_mod_cast h4)
      have := round_mono_q (by linarith :
        (a.current_chunk : ℚ) / a.total_chunks * 100 * 10 ≤
          (b.current_chunk : ℚ) / a.total_chunks * 100 * 10)
      have hq : ((round ((a.current_chunk : ℚ) / a.total_chunks * 100 * 10) : ℤ) : ℚ) ≤
          ((round ((b.current_chunk : ℚ) / a.total_chunks * 100 * 10) : ℤ) : ℚ) := by
        exact_mod_cast this
      linarith

/-- A job that has processed every character (or every chunk) reads exactly
100 percent. -/
theorem percent_full (s : WJob) (h : s.processed_chars = s.total_chars)
    (h2 : s.total_chars ≠ 0 ∨
      (s.current_chunk = s.total_chunks ∧ s.total_chunks ≠ 0)) :
    percentQ s = 100 := by
  unfold percentQ
  rcases h2 with h2 | ⟨h2a, h2b⟩
  · rw [if_pos (Nat.pos_of_ne_zero h2), h]
    rw [div_self (by exact_mod_cast h2)]
    norm_num
  · by_cases ht : 0 < s.total_chars
    · rw [if_pos ht, h, div_self (by
        have : s.total_chars ≠ 0 := by omega
        exact_mod_cast this)]
      norm_num
    · rw [if_neg ht, if_neg h2b, h2a,
        div_self (by exact_mod_cast h2b)]
      norm_num

/-- Per-outcome bookkeeping facts of the chunk loop: which fields it
preserves, how `processed_chars` and `current_chunk` advance on normal
completion, and the terminal shape after the in-loop cancellation return or
an exception. -/
theorem runChunks_facts (env : WorkerEnv) :
    ∀ (chunks : List (List Char)) (i : Nat) (s : WJob) (samples : Nat)
      (anyAudio : Bool) (tr : List WJob),
      (∀ s2 samples2 any2 tr2,
        runChunks env i chunks s samples anyAudio tr =
          .done s2 samples2 any2 tr2 →
        s2.status = s.status ∧ s2.audio_path = s.audio_path ∧
          s2.error_message = s.error_message ∧
          s2.completed_at = s.completed_at ∧
          s2.total_chars = s.total_chars ∧ s2.total_chunks = s.total_chunks ∧
          s2.output_format = s.output_format ∧
          s2.subtitle_format = s.subtitle_format ∧
          s2.processed_chars = s.processed_chars + (chunks.map List.length).sum ∧
          s2.current_chunk =
            (if chunks.isEmpty then s.current_chunk else i + chunks.length) ∧
          (anyAudio = true → any2 = true)) ∧
      (∀ s2 tr2,
        runChunks env i chunks s samples anyAudio tr = .cancelledRet s2 tr2 →
        s2.status = .cancelled ∧ s2.completed_at = true ∧
          s2.audio_path = s.audio_path ∧ s2.error_message = s.error_message) ∧
      (∀ msg s2 tr2,
        runChunks env i chunks s samples anyAudio tr = .raised msg s2 tr2 →
        s2.status = s.status ∧ s2.audio_path = s.audio_path ∧
          s2.completed_at = s.completed_at)
  | [], i, s, samples, anyAudio, tr => by
    refine ⟨?_, ?_, ?_⟩
    · intro s2 samples2 any2 tr2 h
      rw [runChunks] at h
      cases h
      simp
    · intro s2 tr2 h
      rw [runChunks] at h
      cases h
    · intro msg s2 tr2 h
      rw [runChunks] at h
      cases h
  | chunk :: rest, i, s, samples, anyAudio, tr => by
    refine ⟨?_, ?_, ?_⟩
    · intro s2 samples2 any2 tr2 h
      rw [runChunks] at h
      split at h
      · cases h
      · split at h
        · cases h
        · rename_i ys hys
          obtain ⟨f1, f2, f3, f4, f5, f6, f7, f8, f9, f10, f11⟩ :=
            (runChunks_facts env rest (i + 1) _ _ _ _).1 s2 samples2 any2 tr2 h
          refine ⟨f1, f2, f3, f4, f5, f6, f7, f8, ?_, ?_, ?_⟩
          · simp only [List.map_cons, List.sum_cons] at f9 ⊢
            omega
          · rw [f10]
            by_cases hre : rest.isEmpty = true
            · have : rest = [] := by simpa [List.isEmpty_iff] using hre
              subst this
              simp
            · rw [if_neg hre]
              have : rest ≠ [] := by simpa [List.isEmpty_iff] using hre
              cases rest with
              | nil => exact absurd rfl this
              | cons a t =>
                simp only [List.isEmpty_cons, List.length_cons]
                rw [if_neg (by simp)]
                omega
          · intro ha
            exact f11 (by simp [ha])
    · intro s2 tr2 h
      rw [runChunks] at h
      split at h
      · cases h
        exact ⟨rfl, rfl, rfl, rfl⟩
      · split at h
        · cases h
        · obtain ⟨f1, f2, f3, f4⟩ :=
            (runChunks_facts env rest (i + 1) _ _ _ _).2.1 s2 tr2 h
          exact ⟨f1, f2, f3, f4⟩
    · intro msg s2 tr2 h
      rw [runChunks] at h
      split at h
      · cases h
      · split at h
        · cases h
          exact ⟨rfl, rfl, rfl⟩
        · obtain ⟨f1, f2, f3⟩ :=
            (runChunks_facts env rest (i + 1) _ _ _ _).2.2 msg s2 tr2 h
          exact ⟨f1, f2, f3⟩

theorem isCancelledAt_none {env : WorkerEnv} (h : env.cancelFrom = none)
    (k : Nat) : isCancelledAt env k = false := by
  unfold isCancelledAt
  rw [h]

theorem isCancelledAt_some {env : WorkerEnv} {c : Nat}
    (h : env.cancelFrom = some c) (k : Nat) :
    isCancelledAt env k = decide (c ≤ k) := by
  unfold isCancelledAt
  rw [h]

/-- If the cancellation flag turns true at check `c` within the loop's
range and synthesis succeeds before that, the loop returns through the
cancellation branch. -/
theorem runChunks_cancel_hit (env : WorkerEnv) (c : Nat)
    (hc : env.cancelFrom = some c) :
    ∀ (chunks : List (List Char)) (i : Nat) (s : WJob) (samples : Nat)
      (anyAudio : Bool) (tr : List WJob),
      i ≤ c → c < i + chunks.length →
      (∀ ch ∈ chunks, ∃ ys, env.synth ch = Except.ok ys) →
      ∃ s2 tr2, runChunks env i chunks s samples anyAudio tr =
        .cancelledRet s2 tr2
  | [], i, s, samples, anyAudio, tr, h1, h2, _ => by
    simp only [List.length_nil] at h2
    omega
  | chunk :: rest, i, s, samples, anyAudio, tr, h1, h2, hok => by
    rw [runChunks]
    by_cases hci : c ≤ i
    · rw [if_pos (by rw [isCancelledAt_some hc]; simpa using hci)]
      exact ⟨_, _, rfl⟩
    · rw [if_neg (by rw [isCancelledAt_some hc]; simpa using hci)]
      obtain ⟨ys, hys⟩ := hok chunk (by simp)
      rw [hys]
      refine runChunks_cancel_hit env c hc rest (i + 1) _ _ _ _
        (by omega) ?_ (fun ch hch => hok ch (by simp [hch]))
      simp only [List.length_cons] at h2
      omega

/-- With no cancellation observed before check `i + |chunks|` and all
synthesis calls succeeding, the loop runs to normal completion; if some
chunk's generator yields audio (or audio was already accumulated), the
accumulated `anyAudio` flag is set. -/
theorem runChunks_completes (env : WorkerEnv) :
    ∀ (chunks : List (List Char)) (i : Nat) (s : WJob) (samples : Nat)
      (anyAudio : Bool) (tr : List WJob),
      (∀ j, j < i + chunks.length → isCancelledAt env j = false) →
      (∀ ch ∈ chunks, ∃ ys, env.synth ch = Except.ok ys) →
      ∃ s2 samples2 any2 tr2,
        runChunks env i chunks s samples anyAudio tr =
          .done s2 samples2 any2 tr2 ∧
        (((∃ ch ∈ chunks, ∃ ys, env.synth ch = Except.ok ys ∧ ys ≠ []) ∨
          anyAudio = true) → any2 = true)
  | [], i, s, samples, anyAudio, tr, _, _ => by
    rw [runChunks]
    refine ⟨s, samples, anyAudio, tr, rfl, ?_⟩
    rintro (⟨ch, hch, _⟩ | ha)
    · simp at hch
    · exact ha
  | chunk :: rest, i, s, samples, anyAudio, tr, hnc, hok => by
    rw [runChunks]
    rw [if_neg (by rw [hnc i (by simp)]; simp)]
    obtain ⟨ys, hys⟩ := hok chunk (by simp)
    rw [hys]
    obtain ⟨s2, samples2, any2, tr2, heq, hany⟩ :=
      runChunks_completes env rest (i + 1) _ _ (anyAudio || !ys.isEmpty) _
        (fun j hj => hnc j (by simp only [List.length_cons]; omega))
        (fun ch hch => hok ch (by simp [hch]))
    refine ⟨s2, samples2, any2, tr2, heq, ?_⟩
    rintro (⟨ch, hch, zs, hzs, hzne⟩ | ha)
    · rcases List.mem_cons.mp hch with hh | hh
      · subst hh
        refine hany (Or.inr ?_)
        rw [hys] at hzs
        cases hzs
        simp [List.isEmpty_iff, hzne]
      · exact hany (Or.inl ⟨ch, hh, zs, hzs, hzne⟩)
    · exact hany (Or.inr (by simp [ha]))

/-- If no cancellation is ever observed, synthesis succeeds on a prefix and
then raises, the loop returns through the exception path with that
message. -/
theorem runChunks_raises (env : WorkerEnv)
    (hc : env.cancelFrom = none) (ch : List Char) (msg : String)
    (herr : env.synth ch = Except.error msg) :
    ∀ (pre : List (List Char)) (suf : List (List Char)) (i : Nat) (s : WJob)
      (samples : Nat) (anyAudio : Bool) (tr : List WJob),
      (∀ p ∈ pre, ∃ ys, env.synth p = Except.ok ys) →
      ∃ s2 tr2, runChunks env i (pre ++ ch :: suf) s samples anyAudio tr =
        .raised msg s2 tr2
  | [], suf, i, s, samples, anyAudio, tr, _ => by
    rw [List.nil_append, runChunks, if_neg (by rw [isCancelledAt_none hc]; simp),
      herr]
    exact ⟨_, _, rfl⟩
  | p :: pre, suf, i, s, samples, anyAudio, tr, hok => by
    rw [List.cons_append, runChunks,
      if_neg (by rw [isCancelledAt_none hc]; simp)]
    obtain ⟨ys, hys⟩ := hok p (by simp)
    rw [hys]
    exact runChunks_raises env hc ch msg herr pre suf (i + 1) _ _ _ _
      (fun q hq => hok q (by simp [hq]))

/-- Classification of the finalizer: it preserves the progress counters and
the completion flag, and either fails leaving `audio_path` untouched and an
error recorded, or completes with an artifact set (which requires audio). -/
theorem finalizeJob_facts (env : WorkerEnv) (s : WJob) (samples : Nat)
    (anyAudio : Bool) (sr : Nat) (tr : List WJob) :
    (finalizeJob env s samples anyAudio sr tr).1.completed_at =
        s.completed_at ∧
      (finalizeJob env s samples anyAudio sr tr).1.processed_chars =
        s.processed_chars ∧
      (finalizeJob env s samples anyAudio sr tr).1.total_chars =
        s.total_chars ∧
      (finalizeJob env s samples anyAudio sr tr).1.total_chunks =
        s.total_chunks ∧
      (finalizeJob env s samples anyAudio sr tr).1.current_chunk =
        s.current_chunk ∧
      (((finalizeJob env s samples anyAudio sr tr).1.audio_path =
          s.audio_path ∧
          (finalizeJob env s samples anyAudio sr tr).1.status = .failed ∧
          (finalizeJob env s samples anyAudio sr tr).1.error_message ≠ none) ∨
        ((∃ fmt, (finalizeJob env s samples anyAudio sr tr).1.audio_path =
            some fmt) ∧
          (finalizeJob env s samples anyAudio sr tr).1.status = .completed ∧
          anyAudio = true)) := by
  unfold finalizeJob
  by_cases ha : anyAudio = true
  · rw [if_pos ha]
    dsimp only
    rcases hfmt : s.output_format with _ | _ | _ <;> dsimp only
    · by_cases hsub : s.subtitle_format = SubtitleFormat.noSubs <;>
        simp [hsub, ha]
    · by_cases hmp3 : env.mp3Ok = true
      · rw [if_pos hmp3]
        dsimp only
        by_cases hsub : s.subtitle_format = SubtitleFormat.noSubs <;>
          simp [hsub, ha]
      · rw [if_neg hmp3]
        dsimp only
        simp
    · by_cases hff : env.ffmpegAvailable = true
      · rw [if_neg (by simp [hff])]
        by_cases hffo : env.ffmpegOk = true
        · rw [if_pos hffo]
          dsimp only
          by_cases hsub : s.subtitle_format = SubtitleFormat.noSubs <;>
            simp [hsub, ha]
        · rw [if_neg hffo]
          by_cases hmp3 : env.mp3Ok = true
          · rw [if_pos hmp3]
            dsimp only
            by_cases hsub : s.subtitle_format = SubtitleFormat.noSubs <;>
              simp [hsub, ha]
          · rw [if_neg hmp3]
            dsimp only
            simp
      · rw [if_pos (by simp [hff])]
        by_cases hmp3 : env.mp3Ok = true
        · rw [if_pos hmp3]
          dsimp only
          by_cases hsub : s.subtitle_format = SubtitleFormat.noSubs <;>
            simp [hsub, ha]
        · rw [if_neg hmp3]
          dsimp only
          simp
  · rw [if_neg ha]
    dsimp only
    simp [ha]

theorem finalizeJob_mp3_fail (env : WorkerEnv) (s : WJob) (samples sr : Nat)
    (tr : List WJob) (hfmt : s.output_format = .mp3)
    (hmp3 : env.mp3Ok = false) :
    (finalizeJob env s samples true sr tr).1.status = .failed ∧
      (finalizeJob env s samples true sr tr).1.error_message =
        some "mp3 conversion failed" := by
  unfold finalizeJob
  rw [if_pos rfl]
  dsimp only
  rw [hfmt]
  dsimp only
  rw [if_neg (by simp [hmp3])]
  dsimp only
  exact ⟨rfl, rfl⟩

theorem finalizeJob_m4b_fallback (env : WorkerEnv) (s : WJob)
    (samples sr : Nat) (tr : List WJob) (hfmt : s.output_format = .m4b)
    (hmp3 : env.mp3Ok = true)
    (hff : env.ffmpegAvailable = false ∨ env.ffmpegOk = false) :
    (finalizeJob env s samples true sr tr).1.status = .completed ∧
      (finalizeJob env s samples true sr tr).1.audio_path = some .mp3 := by
  unfold finalizeJob
  rw [if_pos rfl]
  dsimp only
  rw [hfmt]
  dsimp only
  rcases hff with hff | hff
  · rw [if_pos (by simp [hff]), if_pos hmp3]
    dsimp only
    by_cases hsub : s.subtitle_format = SubtitleFormat.noSubs <;>
      simp [hsub]
  · by_cases hfa : env.ffmpegAvailable = true
    · rw [if_neg (by simp [hfa]), if_neg (by simp [hff]), if_pos hmp3]
      dsimp only
      by_cases hsub : s.subtitle_format = SubtitleFormat.noSubs <;>
        simp [hsub]
    · rw [if_pos (by simp [hfa]), if_pos hmp3]
      dsimp only
      by_cases hsub : s.subtitle_format = SubtitleFormat.noSubs <;>
        simp [hsub]

theorem trace_snoc {tr : List WJob} {s a : WJob}
    (hc : List.Chain' Mono tr) (hl : tr.getLast? = some s) (hm : Mono s a) :
    List.Chain' Mono (tr ++ [a]) ∧ (tr ++ [a]).getLast? = some a := by
  refine ⟨chain'_concat_of_last hc ?_, List.getLast?_concat _⟩
  intro p hp
  rw [hl] at hp
  cases hp
  exact hm

/-- The chunk loop extends the trace monotonically (every consecutive pair
of snapshots is `Mono`-ordered) and the loop's resulting state is the last
snapshot. -/
theorem runChunks_trace (env : WorkerEnv) :
    ∀ (chunks : List (List Char)) (i : Nat) (s : WJob) (samples : Nat)
      (anyAudio : Bool) (tr : List WJob),
      List.Chain' Mono tr → tr.getLast? = some s → s.current_chunk ≤ i →
      (∀ s2 samples2 any2 tr2,
        runChunks env i chunks s samples anyAudio tr =
          .done s2 samples2 any2 tr2 →
        List.Chain' Mono tr2 ∧ tr2.getLast? = some s2 ∧
          s2.current_chunk ≤ i + chunks.length) ∧
      (∀ s2 tr2,
        runChunks env i chunks s samples anyAudio tr = .cancelledRet s2 tr2 →
        List.Chain' Mono tr2 ∧ tr2.getLast? = some s2) ∧
      (∀ msg s2 tr2,
        runChunks env i chunks s samples anyAudio tr = .raised msg s2 tr2 →
        List.Chain' Mono tr2 ∧ tr2.getLast? = some s2)
  | [], i, s, samples, anyAudio, tr, hc, hl, hcur => by
    refine ⟨?_, ?_, ?_⟩
    · intro s2 samples2 any2 tr2 h
      rw [runChunks] at h
      cases h
      exact ⟨hc, hl, by simpa using hcur⟩
    · intro s2 tr2 h
      rw [runChunks] at h
      cases h
    · intro msg s2 tr2 h
      rw [runChunks] at h
      cases h
  | chunk :: rest, i, s, samples, anyAudio, tr, hc, hl, hcur => by
    have hm1 : Mono s { s with status := JobStatus.cancelled } :=
      ⟨rfl, rfl, le_refl _, le_refl _⟩
    refine ⟨?_, ?_, ?_⟩
    · intro s2 samples2 any2 tr2 h
      rw [runChunks] at h
      split at h
      · cases h
      · split at h
        · cases h
        · dsimp only at h
          obtain ⟨t1, t2⟩ := trace_snoc hc hl
            (⟨rfl, rfl, le_refl _, by simp; omega⟩ :
              Mono s { s with current_chunk := i + 1 })
          obtain ⟨t3, t4⟩ := trace_snoc t1 t2
            (⟨rfl, rfl, by simp, le_refl _⟩ :
              Mono { s with current_chunk := i + 1 }
                { s with
                  current_chunk := i + 1,
                  processed_chars := s.processed_chars + chunk.length })
          have hrec := (runChunks_trace env rest (i + 1) _ _ _ _
            (by simpa using t3) (by simp) (by simp)).1
            s2 samples2 any2 tr2 h
          refine ⟨hrec.1, hrec.2.1, ?_⟩
          have := hrec.2.2
          simp only [List.length_cons]
          omega
    · intro s2 tr2 h
      rw [runChunks] at h
      split at h
      · cases h
        obtain ⟨t1, t2⟩ := trace_snoc hc hl hm1
        obtain ⟨t3, t4⟩ := trace_snoc t1 t2
          (⟨rfl, rfl, le_refl _, le_refl _⟩ :
            Mono { s with status := JobStatus.cancelled }
              { s with
                status := JobStatus.cancelled, completed_at := true })
        exact ⟨by simpa using t3, by simp⟩
      · split at h
        · cases h
        · dsimp only at h
          obtain ⟨t1, t2⟩ := trace_snoc hc hl
            (⟨rfl, rfl, le_refl _, by simp; omega⟩ :
              Mono s { s with current_chunk := i + 1 })
          obtain ⟨t3, t4⟩ := trace_snoc t1 t2
            (⟨rfl, rfl, by simp, le_refl _⟩ :
              Mono { s with current_chunk := i + 1 }
                { s with
                  current_chunk := i + 1,
                  processed_chars := s.processed_chars + chunk.length })
          exact (runChunks_trace env rest (i + 1) _ _ _ _
            (by simpa using t3) (by simp) (by simp)).2.1 s2 tr2 h
    · intro msg s2 tr2 h
      rw [runChunks] at h
      split at h
      · cases h
      · split at h
        · cases h
          obtain ⟨t1, t2⟩ := trace_snoc hc hl
            (⟨rfl, rfl, le_refl _, by simp; omega⟩ :
              Mono s { s with current_chunk := i + 1 })
          exact ⟨t1, t2⟩
        · dsimp only at h
          obtain ⟨t1, t2⟩ := trace_snoc hc hl
            (⟨rfl, rfl, le_refl _, by simp; omega⟩ :
              Mono s { s with current_chunk := i + 1 })
          obtain ⟨t3, t4⟩ := trace_snoc t1 t2
            (⟨rfl, rfl, by simp, le_refl _⟩ :
              Mono { s with current_chunk := i + 1 }
                { s with
                  current_chunk := i + 1,
                  processed_chars := s.processed_chars + chunk.length })
          exact (runChunks_trace env rest (i + 1) _ _ _ _
            (by simpa using t3) (by simp) (by simp)).2.2 msg s2 tr2 h

theorem finalizeJob_trace (env : WorkerEnv) (s : WJob) (samples : Nat)
    (anyAudio : Bool) (sr : Nat) (tr : List WJob)
    (hc : List.Chain' Mono tr) (hl : tr.getLast? = some s) :
    List.Chain' Mono (finalizeJob env s samples anyAudio sr tr).2 ∧
      (finalizeJob env s samples anyAudio sr tr).2.getLast? =
        some (finalizeJob env s samples anyAudio sr tr).1 := by
  unfold finalizeJob
  by_cases ha : anyAudio = true
  · rw [if_pos ha]
    dsimp only
    obtain ⟨t1, t2⟩ := trace_snoc hc hl
      (⟨rfl, rfl, le_refl _, le_refl _⟩ :
        Mono s { s with duration_seconds := (samples : ℚ) / sr })
    rcases hout : (match s.output_format with
      | OutputFormat.wav => Except.ok OutputFormat.wav
      | OutputFormat.mp3 => if env.mp3Ok = true then Except.ok OutputFormat.mp3
          else Except.error "mp3 conversion failed"
      | OutputFormat.m4b =>
        if (!env.ffmpegAvailable) = true then
          (if env.mp3Ok = true then Except.ok OutputFormat.mp3
            else Except.error "mp3 conversion failed")
        else if env.ffmpegOk = true then Except.ok OutputFormat.m4b
        else (if env.mp3Ok = true then Except.ok OutputFormat.mp3
          else Except.error "mp3 conversion failed") :
        Except String OutputFormat) with msg | fmt2
    · dsimp only
      obtain ⟨t3, t4⟩ := trace_snoc t1 t2
        (⟨rfl, rfl, le_refl _, le_refl _⟩ :
          Mono { s with
            duration_seconds := (samples : ℚ) / sr }
          { s with
            duration_seconds := (samples : ℚ) / sr,
            status := JobStatus.failed })
      obtain ⟨t5, t6⟩ := trace_snoc t3 t4
        (⟨rfl, rfl, le_refl _, le_refl _⟩ :
          Mono { s with
            duration_seconds := (samples : ℚ) / sr,
            status := JobStatus.failed }
          { s with
            duration_seconds := (samples : ℚ) / sr,
            status := JobStatus.failed,
            error_message := some msg })
      exact ⟨by simpa using t5, by simp⟩
    · dsimp only
      by_cases hsub : ({ s with
          duration_seconds := (samples : ℚ) / sr } : WJob).subtitle_format =
          SubtitleFormat.noSubs
      · rw [if_pos hsub]
        obtain ⟨t3, t4⟩ := trace_snoc t1 t2 (mono_refl _)
        obtain ⟨t5, t6⟩ := trace_snoc t3 t4
          (⟨rfl, rfl, le_refl _, le_refl _⟩ :
            Mono ({ s with
              duration_seconds := (samples : ℚ) / sr } : WJob)
            { s with
              duration_seconds := (samples : ℚ) / sr,
              audio_path := some fmt2 })
        obtain ⟨t7, t8⟩ := trace_snoc t5 t6
          (⟨rfl, rfl, le_refl _, le_refl _⟩ :
            Mono ({ s with
              duration_seconds := (samples : ℚ) / sr,
              audio_path := some fmt2 } : WJob)
            { s with
              duration_seconds := (samples : ℚ) / sr,
              audio_path := some fmt2,
              status := JobStatus.completed })
        exact ⟨by simpa using t7, by simp⟩
      · rw [if_neg hsub]
        obtain ⟨t3, t4⟩ := trace_snoc t1 t2
          (⟨rfl, rfl, le_refl _, le_refl _⟩ :
            Mono ({ s with
              duration_seconds := (samples : ℚ) / sr } : WJob)
            { s with
              duration_seconds := (samples : ℚ) / sr,
              subtitle_path := some s.subtitle_format })
        obtain ⟨t5, t6⟩ := trace_snoc t3 t4
          (⟨rfl, rfl, le_refl _, le_refl _⟩ :
            Mono ({ s with
              duration_seconds := (samples : ℚ) / sr,
              subtitle_path := some s.subtitle_format } : WJob)
            { s with
              duration_seconds := (samples : ℚ) / sr,
              subtitle_path := some s.subtitle_format,
              audio_path := some fmt2 })
        obtain ⟨t7, t8⟩ := trace_snoc t5 t6
          (⟨rfl, rfl, le_refl _, le_refl _⟩ :
            Mono ({ s with
              duration_seconds := (samples : ℚ) / sr,
              subtitle_path := some s.subtitle_format,
              audio_path := some fmt2 } : WJob)
            { s with
              duration_seconds := (samples : ℚ) / sr,
              subtitle_path := some s.subtitle_format,
              audio_path := some fmt2,
              status := JobStatus.completed })
        exact ⟨by simpa using t7, by simp⟩
  · rw [if_neg ha]
    dsimp only
    obtain ⟨t1, t2⟩ := trace_snoc hc hl
      (⟨rfl, rfl, le_refl _, le_refl _⟩ :
        Mono s { s with status := JobStatus.failed })
    obtain ⟨t3, t4⟩ := trace_snoc t1 t2
      (⟨rfl, rfl, le_refl _, le_refl _⟩ : Mono _ _)
    exact ⟨by simpa using t3, by simp⟩

/-- The full worker run produces a `Mono`-chained trace ending in the
returned state (for a job record starting at chunk 0, as created). -/
theorem runWorker_trace (env : WorkerEnv) (sr : Nat)
    (chunks : List (List Char)) (s0 : WJob) (h0 : s0.current_chunk = 0) :
    List.Chain' Mono (runWorker env sr chunks s0).2 ∧
      (runWorker env sr chunks s0).2.getLast? =
        some (runWorker env sr chunks s0).1 := by
  unfold runWorker
  dsimp only
  have hc0 : List.Chain' Mono
      [s0, { s0 with status := JobStatus.processing }] :=
    List.chain'_cons.mpr ⟨⟨rfl, rfl, le_refl _, le_refl _⟩,
      List.chain'_singleton _⟩
  have hl0 : ([s0, { s0 with status := JobStatus.processing }] :
      List WJob).getLast? =
      some { s0 with status := JobStatus.processing } := rfl
  have htr := runChunks_trace env chunks 0
    { s0 with status := JobStatus.processing } 0 false
    [s0, { s0 with status := JobStatus.processing }] hc0 hl0
    (by simp [h0])
  rcases hrun : runChunks env 0 chunks
      { s0 with status := JobStatus.processing } 0 false
      [s0, { s0 with status := JobStatus.processing }] with
      ⟨s, samples, anyAudio, tr⟩ | ⟨s, tr⟩ | ⟨msg, s, tr⟩
  · rw [hrun] at htr
    obtain ⟨d1, d2, _⟩ := htr.1 s samples anyAudio tr rfl
    dsimp only
    by_cases hcan : isCancelledAt env chunks.length = true
    · rw [if_pos hcan]
      dsimp only
      obtain ⟨t1, t2⟩ := trace_snoc d1 d2
        (⟨rfl, rfl, le_refl _, le_refl _⟩ :
          Mono s { s with status := JobStatus.cancelled })
      obtain ⟨t3, t4⟩ := trace_snoc t1 t2
        (⟨rfl, rfl, le_refl _, le_refl _⟩ :
          Mono ({ s with status := JobStatus.cancelled } : WJob)
          { s with
            status := JobStatus.cancelled,
            completed_at := true })
      obtain ⟨t5, t6⟩ := trace_snoc t3 t4
        (⟨rfl, rfl, le_refl _, le_refl _⟩ :
          Mono ({ s with
            status := JobStatus.cancelled,
            completed_at := true } : WJob)
          { s with
            status := JobStatus.cancelled,
            completed_at := true })
      exact ⟨by simpa using t5, by simp⟩
    · rw [if_neg hcan]
      dsimp only
      obtain ⟨f1, f2⟩ := finalizeJob_trace env s samples anyAudio sr tr d1 d2
      obtain ⟨t1, t2⟩ := trace_snoc f1 f2
        (⟨rfl, rfl, le_refl _, le_refl _⟩ :
          Mono (finalizeJob env s samples anyAudio sr tr).1
          { (finalizeJob env s samples anyAudio sr tr).1 with
            completed_at := true })
      exact ⟨t1, t2⟩
  · rw [hrun] at htr
    obtain ⟨c1, c2⟩ := htr.2.1 s tr rfl
    dsimp only
    obtain ⟨t1, t2⟩ := trace_snoc c1 c2
      (⟨rfl, rfl, le_refl _, le_refl _⟩ :
        Mono s { s with completed_at := true })
    exact ⟨t1, t2⟩
  · rw [hrun] at htr
    obtain ⟨r1, r2⟩ := htr.2.2 msg s tr rfl
    dsimp only
    obtain ⟨t1, t2⟩ := trace_snoc r1 r2
      (⟨rfl, rfl, le_refl _, le_refl _⟩ :
        Mono s { s with status := JobStatus.failed })
    obtain ⟨t3, t4⟩ := trace_snoc t1 t2
      (⟨rfl, rfl, le_refl _, le_refl _⟩ :
        Mono ({ s with status := JobStatus.failed } : WJob)
        { s with
          status := JobStatus.failed,
          error_message := some msg })
    obtain ⟨t5, t6⟩ := trace_snoc t3 t4
      (⟨rfl, rfl, le_refl _, le_refl _⟩ :
        Mono ({ s with
          status := JobStatus.failed,
          error_message := some msg } : WJob)
        { s with
          status := JobStatus.failed,
          error_message := some msg,
          completed_at := true })
    exact ⟨by simpa using t5, by simp⟩

/-- Whenever the worker ends a job `FAILED`, an error message has been
recorded in `error_message`. -/
theorem runWorker_failed_message (env : WorkerEnv) (sr : Nat)
    (chunks : List (List Char)) (fmt : OutputFormat) (sub : SubtitleFormat)
    (h : (runWorker env sr chunks (initJob chunks fmt sub)).1.status =
      JobStatus.failed) :
    (runWorker env sr chunks (initJob chunks fmt sub)).1.error_message ≠
      none := by
  unfold runWorker at h ⊢
  dsimp only at h ⊢
  revert h
  rcases hrun : runChunks env 0 chunks
      { initJob chunks fmt sub with status := JobStatus.processing } 0 false
      [initJob chunks fmt sub,
        { initJob chunks fmt sub with status := JobStatus.processing }] with
      ⟨s, samples, anyAudio, tr⟩ | ⟨s, tr⟩ | ⟨msg, s, tr⟩
  · dsimp only
    by_cases hcan : isCancelledAt env chunks.length = true
    · rw [if_pos hcan]
      dsimp only
      intro h
      simp at h
    · rw [if_neg hcan]
      dsimp only
      intro h
      obtain ⟨g1, g2, g3, g4, g5, gcls⟩ :=
        finalizeJob_facts env s samples anyAudio sr tr
      rcases gcls with ⟨_, _, hmsg⟩ | ⟨_, hst, _⟩
      · simpa using hmsg
      · have h' : (finalizeJob env s samples anyAudio sr tr).1.status =
            JobStatus.failed := by simpa using h
        rw [hst] at h'
        cases h'
  · dsimp only
    intro h
    obtain ⟨f1, _, _, _⟩ :=
      (runChunks_facts env chunks 0 _ _ _ _).2.1 s tr hrun
    have h' : s.status = JobStatus.failed := by simpa using h
    rw [f1] at h'
    cases h'
  · dsimp only
    intro _
    simp

/-- C4: if the cancellation flag is set at some cooperative check within the
run's window (before a chunk's synthesis call, or at the final check before
the output write) and synthesis itself raises no exception, the worker ends
the job `CANCELLED`, records the completion timestamp, and sets no audio
artifact path.  With `c = 0` this covers a job cancelled before any chunk
completes. -/
theorem cancellation_spec (env : WorkerEnv) (sr : Nat)
    (chunks : List (List Char)) (fmt : OutputFormat) (sub : SubtitleFormat)
    (c : Nat) (hc : env.cancelFrom = some c) (hle : c ≤ chunks.length)
    (hok : ∀ ch ∈ chunks, ∃ ys, env.synth ch = Except.ok ys) :
    (runWorker env sr chunks (initJob chunks fmt sub)).1.status =
        JobStatus.cancelled ∧
      (runWorker env sr chunks (initJob chunks fmt sub)).1.completed_at =
        true ∧
      (runWorker env sr chunks (initJob chunks fmt sub)).1.audio_path =
        none := by
  unfold runWorker
  dsimp only
  by_cases hlt : c < chunks.length
  · obtain ⟨s2, tr2, hrun⟩ := runChunks_cancel_hit env c hc chunks 0
      { initJob chunks fmt sub with status := JobStatus.processing } 0 false
      [initJob chunks fmt sub,
        { initJob chunks fmt sub with status := JobStatus.processing }]
      (Nat.zero_le c) (by omega) hok
    rw [hrun]
    dsimp only
    obtain ⟨f1, f2, f3, f4⟩ := (runChunks_facts env chunks 0 _ _ _ _).2.1
      s2 tr2 hrun
    refine ⟨by simpa using f1, rfl, ?_⟩
    show s2.audio_path = none
    rw [f3]
    simp [initJob]
  · have hcl : c = chunks.length := by omega
    obtain ⟨s2, samples2, any2, tr2, hrun, _⟩ :=
      runChunks_completes env chunks 0
        { initJob chunks fmt sub with status := JobStatus.processing } 0 false
        [initJob chunks fmt sub,
          { initJob chunks fmt sub with status := JobStatus.processing }]
        (fun j hj => by
          rw [isCancelledAt_some hc]
          simp only [Nat.zero_add] at hj
          simp
          omega) hok
    rw [hrun]
    dsimp only
    rw [if_pos (by rw [isCancelledAt_some hc]; simp; omega)]
    dsimp only
    obtain ⟨f1, f2, f3, f4, f5, f6, f7, f8, f9, f10, f11⟩ :=
      (runChunks_facts env chunks 0 _ _ _ _).1 s2 samples2 any2 tr2 hrun
    refine ⟨rfl, rfl, ?_⟩
    show s2.audio_path = none
    rw [f2]
    simp [initJob]

/-- Witness for C4: a one-chunk job with the flag set at the first check
ends `CANCELLED`, timestamped, with no artifact. -/
theorem cancellation_spec_witness :
    (runWorker demoEnvCancel0 24000 [['a']]
        (initJob [['a']] OutputFormat.wav SubtitleFormat.noSubs)).1.status =
        JobStatus.cancelled ∧
      (runWorker demoEnvCancel0 24000 [['a']]
        (initJob [['a']] OutputFormat.wav
          SubtitleFormat.noSubs)).1.completed_at = true ∧
      (runWorker demoEnvCancel0 24000 [['a']]
        (initJob [['a']] OutputFormat.wav
          SubtitleFormat.noSubs)).1.audio_path = none :=
  cancellation_spec demoEnvCancel0 24000 [['a']] OutputFormat.wav
    SubtitleFormat.noSubs 0 rfl (by decide) (fun ch _ => ⟨[100], rfl⟩)

/-- C5 (amended): along the trace of job snapshots of a full worker run the
`percent` reading never decreases, and a job that ends `COMPLETED` reads
exactly 100 percent.  (The claim's converse — 100 percent only at
`COMPLETED` — fails; see the counterexample.) -/
theorem percent_spec (env : WorkerEnv) (sr : Nat)
    (chunks : List (List Char)) (fmt : OutputFormat) (sub : SubtitleFormat) :
    List.Chain' (fun a b => percentQ a ≤ percentQ b)
      (runWorker env sr chunks (initJob chunks fmt sub)).2 ∧
      ((runWorker env sr chunks (initJob chunks fmt sub)).1.status =
          JobStatus.completed →
        percentQ (runWorker env sr chunks (initJob chunks fmt sub)).1 =
          100) := by
  constructor
  · exact List.Chain'.imp (fun a b h => percent_mono h)
      (runWorker_trace env sr chunks _ rfl).1
  · unfold runWorker
    dsimp only
    rcases hrun : runChunks env 0 chunks
        { initJob chunks fmt sub with status := JobStatus.processing } 0 false
        [initJob chunks fmt sub,
          { initJob chunks fmt sub with status := JobStatus.processing }] with
        ⟨s, samples, anyAudio, tr⟩ | ⟨s, tr⟩ | ⟨msg, s, tr⟩
    · dsimp only
      by_cases hcan : isCancelledAt env chunks.length = true
      · rw [if_pos hcan]
        dsimp only
        intro hst
        simp at hst
      · rw [if_neg hcan]
        dsimp only
        intro hst
        obtain ⟨f1, f2, f3, f4, f5, f6, f7, f8, f9, f10, f11⟩ :=
          (runChunks_facts env chunks 0 _ _ _ _).1 s samples anyAudio tr hrun
        obtain ⟨g1, g2, g3, g4, g5, gcls⟩ :=
          finalizeJob_facts env s samples anyAudio sr tr
        rcases gcls with ⟨_, hfail, _⟩ | ⟨_, _, hany⟩
        · have h' : (finalizeJob env s samples anyAudio sr tr).1.status =
              JobStatus.completed := by simpa using hst
          rw [hfail] at h'
          cases h'
        · rcases chunks with _ | ⟨c0, rest⟩
          · rw [runChunks] at hrun
            cases hrun
            cases hany
          · have hch : s.processed_chars = s.total_chars := by
              simp [initJob] at f9 f5
              omega
            apply percent_full
            · show (finalizeJob env s samples anyAudio sr tr).1.processed_chars =
                (finalizeJob env s samples anyAudio sr tr).1.total_chars
              rw [g2, g3]
              exact hch
            · by_cases hz : s.total_chars = 0
              · right
                refine ⟨?_, ?_⟩
                · show (finalizeJob env s samples anyAudio sr
                      tr).1.current_chunk =
                    (finalizeJob env s samples anyAudio sr tr).1.total_chunks
                  rw [g5, g4, f10]
                  rw [if_neg (by simp)]
                  rw [f6]
                  simp [initJob]
                · show (finalizeJob env s samples anyAudio sr
                      tr).1.total_chunks ≠ 0
                  rw [g4, f6]
                  simp [initJob]
              · left
                show (finalizeJob env s samples anyAudio sr tr).1.total_chars ≠ 0
                rw [g3]
                exact hz
    · dsimp only
      intro hst
      obtain ⟨f1, _, _, _⟩ :=
        (runChunks_facts env chunks 0 _ _ _ _).2.1 s tr hrun
      have h' : s.status = JobStatus.completed := by simpa using hst
      rw [f1] at h'
      cases h'
    · dsimp only
      intro hst
      simp at hst

/-- C5 counterexample: a one-chunk job whose cancellation flag is first
observed at the final pre-write check ends `CANCELLED` — yet its `percent`
reads exactly 100, so "percent equals 100 only at `COMPLETED`" fails. -/
theorem percent_cancel_at_final :
    (runWorker demoEnvCancelFinal 24000 [['a']]
        (initJob [['a']] OutputFormat.wav SubtitleFormat.noSubs)).1.status =
        JobStatus.cancelled ∧
      percentQ (runWorker demoEnvCancelFinal 24000 [['a']]
        (initJob [['a']] OutputFormat.wav SubtitleFormat.noSubs)).1 =
        100 := by
  have h : (runWorker demoEnvCancelFinal 24000 [['a']]
      (initJob [['a']] OutputFormat.wav SubtitleFormat.noSubs)).1 =
      { status := JobStatus.cancelled, output_format := OutputFormat.wav,
        subtitle_format := SubtitleFormat.noSubs, total_chunks := 1,
        current_chunk := 1, total_chars := 1, processed_chars := 1,
        audio_path := none, subtitle_path := none, duration_seconds := 0,
        completed_at := true, error_message := none } := by
    decide
  rw [h]
  refine ⟨rfl, ?_⟩
  unfold percentQ
  norm_num

/-- C6 (amended): at termination of a worker run, the job's `audio_path` is
set iff the job's status is `COMPLETED`.  (As a mid-run invariant the claim
fails: the artifact path is recorded one tracked mutation before the status
flips to `COMPLETED`; see the counterexample.) -/
theorem audio_path_iff_completed (env : WorkerEnv) (sr : Nat)
    (chunks : List (List Char)) (fmt : OutputFormat) (sub : SubtitleFormat) :
    ((runWorker env sr chunks (initJob chunks fmt sub)).1.audio_path ≠
        none ↔
      (runWorker env sr chunks (initJob chunks fmt sub)).1.status =
        JobStatus.completed) := by
  unfold runWorker
  dsimp only
  rcases hrun : runChunks env 0 chunks
      { initJob chunks fmt sub with status := JobStatus.processing } 0 false
      [initJob chunks fmt sub,
        { initJob chunks fmt sub with status := JobStatus.processing }] with
      ⟨s, samples, anyAudio, tr⟩ | ⟨s, tr⟩ | ⟨msg, s, tr⟩
  · dsimp only
    obtain ⟨f1, f2, f3, f4, f5, f6, f7, f8, f9, f10, f11⟩ :=
      (runChunks_facts env chunks 0 _ _ _ _).1 s samples anyAudio tr hrun
    by_cases hcan : isCancelledAt env chunks.length = true
    · rw [if_pos hcan]
      dsimp only
      constructor
      · intro hap
        refine absurd ?_ hap
        show s.audio_path = none
        rw [f2]
        simp [initJob]
      · intro hst
        simp at hst
    · rw [if_neg hcan]
      dsimp only
      obtain ⟨g1, g2, g3, g4, g5, gcls⟩ :=
        finalizeJob_facts env s samples anyAudio sr tr
      rcases gcls with ⟨gap, gst, _⟩ | ⟨⟨fmt2, gap⟩, gst, _⟩
      · constructor
        · intro hap
          refine absurd ?_ hap
          show (finalizeJob env s samples anyAudio sr tr).1.audio_path = none
          rw [gap, f2]
          simp [initJob]
        · intro hst
          have h' : (finalizeJob env s samples anyAudio sr tr).1.status =
              JobStatus.completed := by simpa using hst
          rw [gst] at h'
          cases h'
      · constructor
        · intro _
          show (finalizeJob env s samples anyAudio sr tr).1.status =
            JobStatus.completed
          exact gst
        · intro _
          show (finalizeJob env s samples anyAudio sr tr).1.audio_path ≠ none
          rw [gap]
          simp
  · dsimp only
    obtain ⟨f1, _, f3, _⟩ :=
      (runChunks_facts env chunks 0 _ _ _ _).2.1 s tr hrun
    constructor
    · intro hap
      refine absurd ?_ hap
      show s.audio_path = none
      rw [f3]
      simp [initJob]
    · intro hst
      have h' : s.status = JobStatus.completed := by simpa using hst
      rw [f1] at h'
      cases h'
  · dsimp only
    obtain ⟨_, f2, _⟩ :=
      (runChunks_facts env chunks 0 _ _ _ _).2.2 msg s tr hrun
    constructor
    · intro hap
      refine absurd ?_ hap
      show s.audio_path = none
      rw [f2]
      simp [initJob]
    · intro hst
      simp at hst

/-- C6 counterexample: in a successful one-chunk run the trace holds a
snapshot whose `audio_path` is already set while its status is not yet
`COMPLETED` — the invariant "audio_path set iff `COMPLETED`" fails mid-run. -/
theorem audio_path_before_completed :
    ∃ p ∈ (runWorker demoEnvOk 24000 [['a']]
        (initJob [['a']] OutputFormat.wav SubtitleFormat.noSubs)).2,
      p.audio_path ≠ none ∧ p.status ≠ JobStatus.completed := by
  decide

/-- C7: a synthesis exception is caught at the worker boundary — the job
ends `FAILED`, the exception message is recorded, the completion timestamp
is set (no retry, nothing propagates) — and, in general, any run that ends
`FAILED` has an error message recorded. -/
theorem worker_exception_spec (env : WorkerEnv) (sr : Nat)
    (pre suf : List (List Char)) (ch : List Char) (msg : String)
    (fmt : OutputFormat) (sub : SubtitleFormat)
    (hc : env.cancelFrom = none)
    (hok : ∀ p ∈ pre, ∃ ys, env.synth p = Except.ok ys)
    (herr : env.synth ch = Except.error msg) :
    ((runWorker env sr (pre ++ ch :: suf)
          (initJob (pre ++ ch :: suf) fmt sub)).1.status =
        JobStatus.failed ∧
      (runWorker env sr (pre ++ ch :: suf)
          (initJob (pre ++ ch :: suf) fmt sub)).1.error_message =
        some msg ∧
      (runWorker env sr (pre ++ ch :: suf)
          (initJob (pre ++ ch :: suf) fmt sub)).1.completed_at = true) ∧
      ∀ (env2 : WorkerEnv) (sr2 : Nat) (chunks2 : List (List Char))
        (fmt2 : OutputFormat) (sub2 : SubtitleFormat),
        (runWorker env2 sr2 chunks2 (initJob chunks2 fmt2 sub2)).1.status =
          JobStatus.failed →
        (runWorker env2 sr2 chunks2
          (initJob chunks2 fmt2 sub2)).1.error_message ≠ none := by
  constructor
  · obtain ⟨s2, tr2, hrun⟩ := runChunks_raises env hc ch msg herr pre suf 0
      { initJob (pre ++ ch :: suf) fmt sub with
        status := JobStatus.processing } 0 false
      [initJob (pre ++ ch :: suf) fmt sub,
        { initJob (pre ++ ch :: suf) fmt sub with
          status := JobStatus.processing }] hok
    unfold runWorker
    dsimp only
    rw [hrun]
    dsimp only
    exact ⟨rfl, rfl, rfl⟩
  · exact fun env2 sr2 chunks2 fmt2 sub2 h =>
      runWorker_failed_message env2 sr2 chunks2 fmt2 sub2 h

/-- Witness for C7: a one-chunk job whose synthesis raises "boom" ends
`FAILED` with the message recorded and the timestamp set. -/
theorem worker_exception_spec_witness :
    ((runWorker demoEnvErr 24000 [['a']]
          (initJob [['a']] OutputFormat.wav
            SubtitleFormat.noSubs)).1.status = JobStatus.failed ∧
      (runWorker demoEnvErr 24000 [['a']]
          (initJob [['a']] OutputFormat.wav
            SubtitleFormat.noSubs)).1.error_message = some "boom" ∧
      (runWorker demoEnvErr 24000 [['a']]
          (initJob [['a']] OutputFormat.wav
            SubtitleFormat.noSubs)).1.completed_at = true) ∧
      ∀ (env2 : WorkerEnv) (sr2 : Nat) (chunks2 : List (List Char))
        (fmt2 : OutputFormat) (sub2 : SubtitleFormat),
        (runWorker env2 sr2 chunks2 (initJob chunks2 fmt2 sub2)).1.status =
          JobStatus.failed →
        (runWorker env2 sr2 chunks2
          (initJob chunks2 fmt2 sub2)).1.error_message ≠ none :=
  worker_exception_spec demoEnvErr 24000 [] [] ['a'] "boom"
    OutputFormat.wav SubtitleFormat.noSubs rfl
    (fun p hp => by simp at hp) rfl

/-- C10: when the m4b container is requested, audio was produced, and
ffmpeg is absent or its invocation fails (with pydub's mp3 export working),
the finalizer falls back to the mp3 artifact and the job still ends
`COMPLETED`. -/
theorem m4b_fallback_spec (env : WorkerEnv) (sr : Nat)
    (chunks : List (List Char)) (sub : SubtitleFormat)
    (hc : env.cancelFrom = none)
    (hok : ∀ ch ∈ chunks, ∃ ys, env.synth ch = Except.ok ys)
    (haud : ∃ ch ∈ chunks, ∃ ys, env.synth ch = Except.ok ys ∧ ys ≠ [])
    (hmp3 : env.mp3Ok = true)
    (hff : env.ffmpegAvailable = false ∨ env.ffmpegOk = false) :
    (runWorker env sr chunks
        (initJob chunks OutputFormat.m4b sub)).1.status =
        JobStatus.completed ∧
      (runWorker env sr chunks
        (initJob chunks OutputFormat.m4b sub)).1.audio_path =
        some OutputFormat.mp3 := by
  obtain ⟨s2, samples2, any2, tr2, hrun, hany⟩ :=
    runChunks_completes env chunks 0
      { initJob chunks OutputFormat.m4b sub with
        status := JobStatus.processing } 0 false
      [initJob chunks OutputFormat.m4b sub,
        { initJob chunks OutputFormat.m4b sub with
          status := JobStatus.processing }]
      (fun j _ => isCancelledAt_none hc j) hok
  have hany2 : any2 = true := hany (Or.inl haud)
  subst hany2
  unfold runWorker
  dsimp only
  rw [hrun]
  dsimp only
  rw [if_neg (by rw [isCancelledAt_none hc]; simp)]
  dsimp only
  obtain ⟨f1, f2, f3, f4, f5, f6, f7, f8, f9, f10, f11⟩ :=
    (runChunks_facts env chunks 0 _ _ _ _).1 s2 samples2 true tr2 hrun
  have hfmt : s2.output_format = OutputFormat.m4b := by
    simpa [initJob] using f7
  obtain ⟨g1, g2⟩ :=
    finalizeJob_m4b_fallback env s2 samples2 sr tr2 hfmt hmp3 hff
  exact ⟨by simpa using g1, by simpa using g2⟩

/-- Witness for C10: a one-chunk m4b job with ffmpeg missing ends
`COMPLETED` with an mp3 artifact. -/
theorem m4b_fallback_spec_witness :
    (runWorker demoEnvNoFfmpeg 24000 [['a']]
        (initJob [['a']] OutputFormat.m4b SubtitleFormat.noSubs)).1.status =
        JobStatus.completed ∧
      (runWorker demoEnvNoFfmpeg 24000 [['a']]
        (initJob [['a']] OutputFormat.m4b
          SubtitleFormat.noSubs)).1.audio_path = some OutputFormat.mp3 :=
  m4b_fallback_spec demoEnvNoFfmpeg 24000 [['a']] SubtitleFormat.noSubs rfl
    (fun ch _ => ⟨[100], rfl⟩)
    ⟨['a'], by simp, [100], rfl, by simp⟩ rfl (Or.inl rfl)

end Mimika
